import Mathlib

/-!
Verification development for the OPENDATA_FRANCE_SCRAPPER repository.

The repository contains five near-duplicate Python scripts (CAPP.py, CASS.py,
CNIL.py, INCA.py, JADE.py) that download DILA open-data archives, parse one
XML document per court decision with `xml.etree.ElementTree`, and emit one
flat JSON record per document into a JSON-Lines file.

This file gives a shallow embedding of the parts of those scripts that the
claims concern:

* the text normalizer `clean_text` (tag stripping by the regex `<[^>]+>`,
  whitespace collapsing by `\s+`, the five XML entity replacements, strip);
* the `xml.etree.ElementTree` data model (`Element`) together with the
  `find`, `findtext`, `get`, `itertext` operations as used by the scripts;
* `get_element_text` (CAPP/CASS/INCA version with `clean_text`, and the
  JADE version with `.strip()`);
* the per-corpus `parse_xml_file` functions (CAPP, CNIL, INCA, JADE) over
  records modelled as ordered association lists (Python dicts preserve
  insertion order; a value of `Option String` models a Python value that is
  either a string (`some`) or `None` (`none`));
* the batching loop of CAPP's `main` and the result loop of CNIL's
  `tar_dila_data`.

Recursive text functions are defined through a fuel parameter (fuel is
always instantiated with the length of the input, which is a strict bound on
the number of steps), so that every definition is structurally recursive and
computable by `decide`/`rfl`.
-/

/-- Characters accepted by Python's `str.isspace`, which is also the
character class matched by `\s` in `re` patterns over `str` and the set
stripped by `str.strip()`. -/
def pySpaceChars : List Char :=
  ['\t', '\n', '\x0b', '\x0c', '\r', '\x1c', '\x1d', '\x1e', '\x1f', ' ', '\u0085', '\u00A0', '\u1680', '\u2000', '\u2001', '\u2002', '\u2003', '\u2004', '\u2005', '\u2006', '\u2007', '\u2008', '\u2009', '\u200A', '\u2028', '\u2029', '\u202F', '\u205F', '\u3000']

/-- Python whitespace test (`\s` of the `re` module / `str.strip`). -/
def isSpace (c : Char) : Bool := pySpaceChars.contains c

/-- Does `pat` occur as a contiguous substring of `s`?  (`pat in s` /
a successful `re`-free search, used to state entity-freeness). -/
def occursIn (pat : List Char) : List Char → Bool
  | [] => pat.isEmpty
  | c :: rest => pat.isPrefixOf (c :: rest) || occursIn pat rest

/-- The character class `[^>]` of the tag regex. -/
def notGt (c : Char) : Bool := c != '>'

/-- Fuelled version of the substitution `re.sub(r'<[^>]+>', ' ', text)`:
at each `<` the maximal run of non-`>` characters is taken greedily; if it
is nonempty and followed by `>`, the whole match is replaced by one space
and scanning resumes after the match, otherwise scanning moves on.  The
fuel strictly exceeds the number of scanning steps whenever it is at least
the length of the input. -/
def tagSubF : Nat → List Char → List Char
  | 0, s => s
  | _ + 1, [] => []
  | n + 1, c :: rest =>
    if c = '<' ∧ rest.takeWhile notGt ≠ [] ∧ rest.dropWhile notGt ≠ [] then
      ' ' :: tagSubF n ((rest.dropWhile notGt).tail)
    else
      c :: tagSubF n rest

/-- `re.sub(r'<[^>]+>', ' ', text)` from `clean_text`. -/
def tagSub (s : List Char) : List Char := tagSubF s.length s

/-- Fuelled version of `re.sub(r'\s+', ' ', text)`: each maximal nonempty
run of whitespace characters is replaced by a single space. -/
def collapseF : Nat → List Char → List Char
  | 0, s => s
  | _ + 1, [] => []
  | n + 1, c :: rest =>
    if isSpace c then ' ' :: collapseF n (rest.dropWhile isSpace)
    else c :: collapseF n rest

/-- `re.sub(r'\s+', ' ', text)` from `clean_text`. -/
def collapse (s : List Char) : List Char := collapseF s.length s

/-- Fuelled version of Python `str.replace(pat, rep)`: leftmost,
non-overlapping replacement of every occurrence. -/
def replaceF (pat rep : List Char) : Nat → List Char → List Char
  | 0, s => s
  | _ + 1, [] => []
  | n + 1, c :: rest =>
    if pat ≠ [] ∧ pat.isPrefixOf (c :: rest) then
      rep ++ replaceF pat rep n ((c :: rest).drop pat.length)
    else
      c :: replaceF pat rep n rest

/-- Python `str.replace(pat, rep)` on character lists. -/
def replaceL (pat rep s : List Char) : List Char := replaceF pat rep s.length s

/-- Remove leading Python whitespace (`str.lstrip`). -/
def stripL (s : List Char) : List Char := s.dropWhile isSpace

/-- Remove trailing Python whitespace (`str.rstrip`). -/
def stripR (s : List Char) : List Char := (s.reverse.dropWhile isSpace).reverse

/-- Python `str.strip()`. -/
def stripBoth (s : List Char) : List Char := stripR (stripL s)

/-- The five XML escape sequences targeted by `clean_text`, with their
replacements, in the order the source applies them (`&amp;` first). -/
def entityPats : List (List Char × List Char) :=
  [(['&', 'a', 'm', 'p', ';'], ['&']),
   (['&', 'l', 't', ';'], ['<']),
   (['&', 'g', 't', ';'], ['>']),
   (['&', 'q', 'u', 'o', 't', ';'], ['"']),
   (['&', 'a', 'p', 'o', 's', ';'], ['\''])]

/-- The five successive `text.replace(...)` calls of `clean_text`, applied
in source order. -/
def entityReplaceAll (s : List Char) : List Char :=
  entityPats.foldl (fun t pr => replaceL pr.1 pr.2 t) s

/-- Embedding of `clean_text` (CAPP.py lines 39-50; identical in CASS.py
and INCA.py): falsy input gives `""`; otherwise strip tags with
`re.sub(r'<[^>]+>', ' ')`, collapse whitespace with `re.sub(r'\s+', ' ')`,
decode the five XML entities, and strip. -/
def cleanTextL (s : List Char) : List Char :=
  if s = [] then []
  else stripBoth (entityReplaceAll (collapse (tagSub s)))

/-- `clean_text` on strings. -/
def cleanText (s : String) : String := String.mk (cleanTextL s.data)

/-!
The `xml.etree.ElementTree` data model, as far as the scripts use it.
An element carries its tag, its attribute dictionary (an ordered
association list), its `text` (the text before the first child; `none`
models Python `None`), its children, and its `tail` (the text between this
element's end tag and the next sibling).  The child list is a separate
inductive so that all recursions are structural and computable.
-/

mutual

inductive Element : Type where
  | mk (tag : String) (attrib : List (String × String)) (text : Option String)
       (children : ElementList) (tail : Option String)

inductive ElementList : Type where
  | nil
  | cons (head : Element) (tail : ElementList)

end

/-- Tag of an element. -/
def Element.tag : Element → String
  | .mk t _ _ _ _ => t

/-- Attribute dictionary of an element. -/
def Element.attrib : Element → List (String × String)
  | .mk _ a _ _ _ => a

/-- Text before the first child (`Element.text`; `none` is Python `None`). -/
def Element.text : Element → Option String
  | .mk _ _ t _ _ => t

/-- Child elements. -/
def Element.children : Element → ElementList
  | .mk _ _ _ cs _ => cs

/-- Text after this element's end tag (`Element.tail`). -/
def Element.tail : Element → Option String
  | .mk _ _ _ _ t => t

/-- First element of `l` (in order) whose tag is `tag` — the search done by
`element.find('TAG')`, which looks at direct children only. -/
def findChildL (tag : String) : ElementList → Option Element
  | .nil => none
  | .cons c rest => if c.tag = tag then some c else findChildL tag rest

/-- `element.find('TAG')`: first direct child with the given tag. -/
def findChildE (tag : String) (e : Element) : Option Element :=
  findChildL tag e.children

mutual

/-- `element.find('.//TAG')`: first proper descendant with the given tag,
in document (preorder) order.  The element itself is not a candidate. -/
def findDescE (tag : String) : Element → Option Element
  | .mk _ _ _ cs _ => findDescL tag cs

/-- Search a sibling list: each element is checked before its own subtree,
and a whole subtree before the next sibling (document order). -/
def findDescL (tag : String) : ElementList → Option Element
  | .nil => none
  | .cons c rest =>
    if c.tag = tag then some c
    else
      match findDescE tag c with
      | some r => some r
      | none => findDescL tag rest

end

/-- Paths the scripts pass to `find`: either a bare tag (child lookup) or
`'.//TAG'` (descendant lookup). -/
inductive ETPath : Type where
  | child (tag : String)
  | desc (tag : String)

/-- `element.find(path)` for the two path shapes used in the repository. -/
def findPath (e : Element) : ETPath → Option Element
  | .child t => findChildE t e
  | .desc t => findDescE t e

/-- Concatenation of an optional text node (`None` contributes nothing,
exactly as `itertext` skips absent text). -/
def optStr : Option String → List Char
  | none => []
  | some s => s.data

mutual

/-- `''.join(element.itertext())`: the element's `text`, then recursively
each child's `itertext` followed by that child's `tail`. -/
def itertextE : Element → List Char
  | .mk _ _ t cs _ => optStr t ++ itertextL cs

/-- Concatenated `itertext` of a sibling list, each element's text followed
by its `tail`. -/
def itertextL : ElementList → List Char
  | .nil => []
  | .cons c rest => itertextE c ++ optStr c.tail ++ itertextL rest

end

/-- `ET.tostring(element, encoding="unicode", method="text")`: all the
descendant text of the element followed by the element's own `tail` text
(the serializer emits `elem.tail` after the subtree). -/
def tostringText (e : Element) : List Char := itertextE e ++ optStr e.tail

/-- Embedding of `get_element_text` (CAPP.py lines 52-55, identical in
CASS.py and INCA.py): `clean_text(found.text) if found is not None and
found.text else ''`.  A found element whose text is `None` or `""` is
falsy, giving `''`. -/
def getElementText (element : Element) (path : ETPath) : String :=
  match findPath element path with
  | none => ""
  | some found =>
    match found.text with
    | none => ""
    | some t => if t = "" then "" else cleanText t

/-- Embedding of JADE's `get_element_text` (JADE.py lines 41-44):
`found.text.strip() if found is not None and found.text else ''`. -/
def getElementTextJade (element : Element) (path : ETPath) : String :=
  match findPath element path with
  | none => ""
  | some found =>
    match found.text with
    | none => ""
    | some t => if t = "" then "" else String.mk (stripBoth t.data)

/-- Ordered dictionary lookup on the attribute list. -/
def lookupStr : List (String × String) → String → Option String
  | [], _ => none
  | (k, v) :: rest, key => if k = key then some v else lookupStr rest key

/-- `element.get(key)`: the attribute's value, or Python `None` (modelled
as `none`) when the attribute is absent. -/
def getAttr (e : Element) (key : String) : Option String :=
  lookupStr e.attrib key

/-- `element.findtext(tag, default)` for a bare tag, as used by CNIL.py:
the first matching child's text (`""` if that text is `None`), or the
default when no child matches. -/
def findtextD (e : Element) (tag : String) (dflt : String) : String :=
  match findChildE tag e with
  | some f => (f.text).getD ""
  | none => dflt

/-!
Records.  A parsed document becomes a Python dict mapping field names to
values; dicts preserve insertion order, and assigning to an existing key
replaces the value in place.  A value is `some s` for a Python string and
`none` for Python `None` (which `json.dumps` serializes as `null`).
-/

/-- A flat output record: insertion-ordered key/value pairs. -/
abbrev Record := List (String × Option String)

/-- Dict assignment `d[k] = v`: replace in place when the key exists,
append otherwise. -/
def setKey : Record → String → Option String → Record
  | [], k, v => [(k, v)]
  | (k', v') :: rest, k, v =>
    if k' = k then (k', v) :: rest else (k', v') :: setKey rest k v

/-- `d.update({...})`: apply the assignments in the literal's order. -/
def updateFields (d : Record) (kvs : List (String × Option String)) : Record :=
  kvs.foldl (fun acc kv => setKey acc kv.1 kv.2) d

/-- Dict lookup: `some v` when the key is present with value `v`. -/
def lookupVal : Record → String → Option (Option String)
  | [], _ => none
  | (k', v) :: rest, k => if k' = k then some v else lookupVal rest k

/-- The key list of a record, in order. -/
def recKeys (d : Record) : List String := d.map Prod.fst

/-- The `X = root.find(..); if X is not None: data.update({...})` pattern
shared by all the parsers: when the block is absent the record is
unchanged. -/
def applyBlock (d : Record) (o : Option Element)
    (f : Element → List (String × Option String)) : Record :=
  match o with
  | some e => updateFields d (f e)
  | none => d

/-- Build the initial dict literal: every declared key bound to `''`. -/
def initRecord (ks : List String) : Record := ks.map (fun k => (k, some ""))

/-!
CAPP.py `parse_xml_file` (lines 57-138).  The input of `parse_xml_file` is
a file whose `ET.parse` either yields a root element (`.ok root`) or raises
(`.error msg`, e.g. malformed XML); the function's `try`/`except` turns any
raise into `None`.  The body itself raises nothing.
-/

/-- Declared key set of the CAPP record (the dict literal of lines 64-86),
in insertion order. -/
def capKeys : List String :=
  ["id", "ancien_id", "origine", "url", "nature", "titre", "date_decision",
   "juridiction", "numero", "solution", "numero_affaire", "formation",
   "siege_appel", "juridiction_premiere_instance", "lieu_premiere_instance",
   "president", "avocat_general", "avocats", "rapporteur", "contenu",
   "sommaire"]

/-- The initial CAPP dict: every declared key bound to `''`. -/
def capInit : Record := initRecord capKeys

/-- Fields of the `META_COMMUN` update (CAPP.py lines 91-97). -/
def capCommunFields (m : Element) : List (String × Option String) :=
  [("id", some (getElementText m (.child "ID"))),
   ("ancien_id", some (getElementText m (.child "ANCIEN_ID"))),
   ("origine", some (getElementText m (.child "ORIGINE"))),
   ("url", some (getElementText m (.child "URL"))),
   ("nature", some (getElementText m (.child "NATURE")))]

/-- Fields of the `META_JURI` update (CAPP.py lines 102-108). -/
def capJuriFields (m : Element) : List (String × Option String) :=
  [("titre", some (getElementText m (.child "TITRE"))),
   ("date_decision", some (getElementText m (.child "DATE_DEC"))),
   ("juridiction", some (getElementText m (.child "JURIDICTION"))),
   ("numero", some (getElementText m (.child "NUMERO"))),
   ("solution", some (getElementText m (.child "SOLUTION")))]

/-- Fields of the `META_JURI_JUDI` update (CAPP.py lines 113-124).  Note
`'numero_affaire'` is `numero_affaire.text if numero_affaire is not None
else ''`: the raw `.text`, which is Python `None` when the element exists
but has no text. -/
def capJuriJudiFields (m : Element) : List (String × Option String) :=
  [("numero_affaire",
    match findDescE "NUMERO_AFFAIRE" m with
    | some na => na.text
    | none => some ""),
   ("formation", some (getElementText m (.child "FORMATION"))),
   ("siege_appel", some (getElementText m (.child "SIEGE_APPEL"))),
   ("juridiction_premiere_instance", some (getElementText m (.child "JURI_PREM"))),
   ("lieu_premiere_instance", some (getElementText m (.child "LIEU_PREM"))),
   ("president", some (getElementText m (.child "PRESIDENT"))),
   ("avocat_general", some (getElementText m (.child "AVOCAT_GL"))),
   ("avocats", some (getElementText m (.child "AVOCATS"))),
   ("rapporteur", some (getElementText m (.child "RAPPORTEUR")))]

/-- The CAPP record after the `META_COMMUN` block (CAPP.py lines 89-97). -/
def capStage1 (root : Element) : Record :=
  applyBlock capInit (findDescE "META_COMMUN" root) capCommunFields

/-- The CAPP record after the `META_JURI` block (lines 100-108). -/
def capStage2 (root : Element) : Record :=
  applyBlock (capStage1 root) (findDescE "META_JURI" root) capJuriFields

/-- The CAPP record after the `META_JURI_JUDI` block (lines 111-124). -/
def capStage3 (root : Element) : Record :=
  applyBlock (capStage2 root) (findDescE "META_JURI_JUDI" root) capJuriJudiFields

/-- The CAPP record after the `CONTENU` assignment (lines 127-129). -/
def capStage4 (root : Element) : Record :=
  applyBlock (capStage3 root) (findDescE "CONTENU" root)
    (fun c => [("contenu", some (String.mk (cleanTextL (itertextE c))))])

/-- Body of CAPP.py `parse_xml_file` on a successfully parsed root: the
record after the final `SOMMAIRE` assignment (lines 131-133). -/
def parseCAPPRoot (root : Element) : Record :=
  applyBlock (capStage4 root) (findDescE "SOMMAIRE" root)
    (fun s => [("sommaire", some (String.mk (cleanTextL (itertextE s))))])

/-- CAPP.py `parse_xml_file`: a raise from `ET.parse` (malformed XML) is
caught by the `except` clause and becomes `None`. -/
def parseCAPP : Except String Element → Option Record
  | .error _ => none
  | .ok root => some (parseCAPPRoot root)

/-!
JADE.py `parse_xml_file` (lines 46-112).  JADE.py never imports `re`, so
its `clean_text` raises `NameError: name 're' is not defined` on first use
(line 29).  `clean_text` is reached exactly when a `CONTENU` element is
found (line 107); the `except` at line 110 then returns `None`.  Metadata
extraction uses the `.strip()`-based `get_element_text` and never touches
`clean_text`.
-/

/-- Declared key set of the JADE record (dict literal of lines 53-71). -/
def jadeKeys : List String :=
  ["id", "ancien_id", "origine", "url", "nature", "titre", "date_decision",
   "juridiction", "numero", "formation", "type_recours",
   "publication_recueil", "president", "avocats", "rapporteur",
   "commissaire_gouvernement", "contenu"]

/-- The initial JADE dict. -/
def jadeInit : Record := initRecord jadeKeys

/-- Fields of the JADE `META_COMMUN` assignments (lines 76-80). -/
def jadeCommunFields (m : Element) : List (String × Option String) :=
  [("id", some (getElementTextJade m (.child "ID"))),
   ("ancien_id", some (getElementTextJade m (.child "ANCIEN_ID"))),
   ("origine", some (getElementTextJade m (.child "ORIGINE"))),
   ("url", some (getElementTextJade m (.child "URL"))),
   ("nature", some (getElementTextJade m (.child "NATURE")))]

/-- Fields of the JADE `META_JURI` assignments (lines 85-88). -/
def jadeJuriFields (m : Element) : List (String × Option String) :=
  [("titre", some (getElementTextJade m (.child "TITRE"))),
   ("date_decision", some (getElementTextJade m (.child "DATE_DEC"))),
   ("juridiction", some (getElementTextJade m (.child "JURIDICTION"))),
   ("numero", some (getElementTextJade m (.child "NUMERO")))]

/-- Fields of the JADE `META_JURI_ADMIN` assignments (lines 93-99). -/
def jadeJuriAdminFields (m : Element) : List (String × Option String) :=
  [("formation", some (getElementTextJade m (.child "FORMATION"))),
   ("type_recours", some (getElementTextJade m (.child "TYPE_REC"))),
   ("publication_recueil", some (getElementTextJade m (.child "PUBLI_RECUEIL"))),
   ("president", some (getElementTextJade m (.child "PRESIDENT"))),
   ("avocats", some (getElementTextJade m (.child "AVOCATS"))),
   ("rapporteur", some (getElementTextJade m (.child "RAPPORTEUR"))),
   ("commissaire_gouvernement", some (getElementTextJade m (.child "COMMISSAIRE_GVT")))]

/-- The JADE metadata record after the three metadata blocks (JADE.py
lines 74-99).  When a `CONTENU` element is present, line 107 calls
`clean_text`, whose first statement `re.sub(...)` raises `NameError` (no
`import re` in JADE.py); the handler at line 110 returns `None`.  Without
`CONTENU`, `clean_text` is never called and the record is returned. -/
def jadeStage3 (root : Element) : Record :=
  applyBlock
    (applyBlock
      (applyBlock jadeInit (findDescE "META_COMMUN" root) jadeCommunFields)
      (findDescE "META_JURI" root) jadeJuriFields)
    (findDescE "META_JURI_ADMIN" root) jadeJuriAdminFields

/-- Body of JADE.py `parse_xml_file` on a successfully parsed root (see the
module comment above: `jadeStage3` is the metadata record built by lines
74-99, and the `CONTENU` branch raises inside `clean_text`). -/
def parseJADERoot (root : Element) : Option Record :=
  match findDescE "CONTENU" root with
  | some _ => none
  | none => some (jadeStage3 root)

/-- JADE.py `parse_xml_file`: malformed XML and the `NameError` above are
both caught and become `None`. -/
def parseJADE : Except String Element → Option Record
  | .error _ => none
  | .ok root => parseJADERoot root

/-!
CNIL.py `parse_cnil_xml_file` (lines 124-169).  The record starts as the
empty dict; keys are only inserted when their source is found.  When
`META_CNIL` is absent, `meta.findtext(...)` on line 157 raises
`AttributeError` (on `None`), which the handler at line 168 re-raises as
`RuntimeError`; an `ET.ParseError` is re-raised as `ValueError` (line 167).
Unlike the other scripts, nothing is caught at the document boundary.
-/

/-- The CNIL record after the `META_COMMUN` block (CNIL.py lines 143-146);
unlike the other scripts, the record starts as the empty dict, so the four
keys are simply absent when the block is. -/
def cnilStage1 (root : Element) : Record :=
  applyBlock []
    (findDescE "META_COMMUN" root)
    (fun meta =>
      [("id", some (findtextD meta "ID" "")),
       ("origine", some (findtextD meta "ORIGINE" "")),
       ("url", some (findtextD meta "URL" "")),
       ("nature", some (findtextD meta "NATURE" ""))])

/-- The CNIL `META_CNIL` fields (CNIL.py lines 148-157). -/
def cnilCnilFields (meta : Element) : List (String × Option String) :=
  [("titrefull", some (findtextD meta "TITREFULL" "")),
   ("numero", some (findtextD meta "NUMERO" "")),
   ("nature_delib", some (findtextD meta "NATURE_DELIB" "")),
   ("date_texte", some (findtextD meta "DATE_TEXTE" "")),
   ("date_publi", some (findtextD meta "DATE_PUBLI" "")),
   ("etat_juridique", some (findtextD meta "ETAT_JURIDIQUE" ""))]

/-- Body of CNIL.py `parse_cnil_xml_file` on a successfully parsed root.
The result is `.error` when the extraction raises (`META_CNIL` absent, so
`meta.findtext` is called on `None`). -/
def parseCNILRoot (root : Element) : Except String Record :=
  match findDescE "META_CNIL" root with
  | none => .error "RuntimeError: NoneType has no attribute findtext"
  | some meta =>
    .ok (applyBlock (updateFields (cnilStage1 root) (cnilCnilFields meta))
      (findDescE "CONTENU" root)
      (fun c => [("contenu", some (String.mk (stripBoth (tostringText c))))]))

/-- CNIL.py `parse_cnil_xml_file`: a raise of `ET.parse` is re-raised as
`ValueError`, and any other exception as `RuntimeError` — the function
propagates failures instead of returning a failure value. -/
def parseCNIL : Except String Element → Except String Record
  | .error e => .error ("ValueError: Invalid XML format: " ++ e)
  | .ok root => parseCNILRoot root

/-!
INCA.py `parse_xml_file` (lines 66-161).  The specialized blocks
`META_JURI` and `META_JURI_JUDI` are looked up exclusively inside the
`META_SPEC` container (lines 115-146); there is no lookup of them at top
level when `META_SPEC` is absent.
-/

/-- Declared key set of the INCA record (dict literal of lines 73-101). -/
def incaKeys : List String :=
  ["id", "ancien_id", "origine", "url", "nature", "titre", "date_decision",
   "juridiction", "numero", "solution", "numero_affaire", "publie_bulletin",
   "formation", "date_decision_attaquee", "juridiction_attaquee",
   "siege_appel", "juridiction_premiere_instance", "lieu_premiere_instance",
   "demandeur", "defendeur", "president", "avocat_general", "avocats",
   "rapporteur", "ecli", "contenu", "sommaire"]

/-- The initial INCA dict. -/
def incaInit : Record := initRecord incaKeys

/-- `publi_bull.get('publie') if publi_bull is not None else ''`
(INCA.py lines 129 and 132, CASS.py lines 136 and 139): the attribute-
reading variant of the field extractor used for the publication flag.
When the `PUBLI_BULL` element is absent the value is `''`; when it is
present the value is `element.get('publie')`, which is Python `None`
(`none`) when the attribute is absent. -/
def publieBulletin (m : Element) : Option String :=
  match findChildE "PUBLI_BULL" m with
  | some pb => getAttr pb "publie"
  | none => some ""

/-- Fields of the INCA `META_JURI` update (lines 119-125). -/
def incaJuriFields (m : Element) : List (String × Option String) :=
  [("titre", some (getElementText m (.child "TITRE"))),
   ("date_decision", some (getElementText m (.child "DATE_DEC"))),
   ("juridiction", some (getElementText m (.child "JURIDICTION"))),
   ("numero", some (getElementText m (.child "NUMERO"))),
   ("solution", some (getElementText m (.child "SOLUTION")))]

/-- Fields of the INCA `META_JURI_JUDI` update (lines 130-146). -/
def incaJuriJudiFields (m : Element) : List (String × Option String) :=
  [("numero_affaire", some (getElementText m (.desc "NUMERO_AFFAIRE"))),
   ("publie_bulletin", publieBulletin m),
   ("formation", some (getElementText m (.child "FORMATION"))),
   ("date_decision_attaquee", some (getElementText m (.child "DATE_DEC_ATT"))),
   ("juridiction_attaquee", some (getElementText m (.child "FORM_DEC_ATT"))),
   ("siege_appel", some (getElementText m (.child "SIEGE_APPEL"))),
   ("juridiction_premiere_instance", some (getElementText m (.child "JURI_PREM"))),
   ("lieu_premiere_instance", some (getElementText m (.child "LIEU_PREM"))),
   ("demandeur", some (getElementText m (.child "DEMANDEUR"))),
   ("defendeur", some (getElementText m (.child "DEFENDEUR"))),
   ("president", some (getElementText m (.child "PRESIDENT"))),
   ("avocat_general", some (getElementText m (.child "AVOCAT_GL"))),
   ("avocats", some (getElementText m (.child "AVOCATS"))),
   ("rapporteur", some (getElementText m (.child "RAPPORTEUR"))),
   ("ecli", some (getElementText m (.child "ECLI")))]

/-- The INCA record after the `META_COMMUN` block (INCA.py lines 104-112;
the field list of the update is letter-for-letter the CAPP one). -/
def incaStage1 (root : Element) : Record :=
  applyBlock incaInit (findDescE "META_COMMUN" root) capCommunFields

/-- The INCA record after the `META_SPEC` branch (lines 115-146): the
specialized blocks are searched only inside `meta_spec`; when `META_SPEC`
is absent the record is left as it was after `META_COMMUN`. -/
def incaStage2 (root : Element) : Record :=
  match findDescE "META_SPEC" root with
  | none => incaStage1 root
  | some ms =>
    applyBlock
      (applyBlock (incaStage1 root) (findDescE "META_JURI" ms) incaJuriFields)
      (findDescE "META_JURI_JUDI" ms) incaJuriJudiFields

/-- The INCA record after the `CONTENU` assignment (lines 149-151). -/
def incaStage3 (root : Element) : Record :=
  applyBlock (incaStage2 root) (findDescE "CONTENU" root)
    (fun c => [("contenu", some (String.mk (cleanTextL (itertextE c))))])

/-- Body of INCA.py `parse_xml_file` on a successfully parsed root: the
record after the final `SOMMAIRE` assignment (lines 154-156). -/
def parseINCARoot (root : Element) : Record :=
  applyBlock (incaStage3 root) (findDescE "SOMMAIRE" root)
    (fun s => [("sommaire", some (String.mk (cleanTextL (itertextE s))))])

/-- INCA.py `parse_xml_file` with its document-boundary `except`. -/
def parseINCA : Except String Element → Option Record
  | .error _ => none
  | .ok root => some (parseINCARoot root)

/-!
The CAPP batching loop (CAPP.py lines 181-203): each successful parse is
appended to `batch_data`; when `len(batch_data) >= batch_size` the batch is
written and the buffer reset; after the loop a nonempty remainder is
written.  `if data:` is Python truthiness: `None` and the empty dict are
both skipped.  The result collects the written batches in order; the
output file's lines are their concatenation (one JSON line per record).
-/

/-- One pass of the CAPP processing loop, carrying the current buffer and
the list of batches written so far. -/
def runBatchesAux (batchSize : Nat) (batch : List Record)
    (writes : List (List Record)) : List (Option Record) → List (List Record)
  | [] => if batch ≠ [] then writes ++ [batch] else writes
  | d :: rest =>
    match d with
    | none => runBatchesAux batchSize batch writes rest
    | some data =>
      if data = [] then runBatchesAux batchSize batch writes rest
      else
        let b := batch ++ [data]
        if batchSize ≤ b.length then runBatchesAux batchSize [] (writes ++ [b]) rest
        else runBatchesAux batchSize b writes rest

/-- The batches written by the CAPP processing loop over the given parse
results. -/
def runBatches (batchSize : Nat) (docs : List (Option Record)) : List (List Record) :=
  runBatchesAux batchSize [] [] docs

/-- The whole CAPP corpus parsing phase: parse every discovered file and
feed results through the batching loop. -/
def runCAPP (batchSize : Nat) (files : List (Except String Element)) : List (List Record) :=
  runBatches batchSize (files.map parseCAPP)

/-- The CNIL processing loop (CNIL.py lines 201-206): no `try` surrounds
`parse_cnil_xml_file`, so a raise propagates and aborts the whole run
(nothing is written — CNIL writes its results only after the loop).
Results of the surviving documents are accumulated when truthy. -/
def runCNIL : List (Except String Element) → Except String (List Record)
  | [] => .ok []
  | f :: rest =>
    match parseCNIL f with
    | .error e => .error e
    | .ok d =>
      match runCNIL rest with
      | .error e => .error e
      | .ok ds => .ok (if d = [] then ds else d :: ds)

/-- No position of the list starts a match of `<[^>]+>`: every `<` is
either immediately followed by `>` or has no `>` anywhere after it. -/
def noTagB : List Char → Bool
  | [] => true
  | c :: rest =>
    (if c = '<' then ((rest.head? == some '>') || !(rest.contains '>')) else true)
      && noTagB rest

/-- Every whitespace character is a plain space and no two whitespace
characters are adjacent: the shape of any `re.sub(r'\s+', ' ', ...)`
output. -/
def collapsedB : List Char → Bool
  | [] => true
  | c :: rest =>
    (if isSpace c then
      ((c == ' ') && (rest.head?.elim true fun d => !isSpace d))
     else true) && collapsedB rest

/-!
Entity freeness and its preservation along the normalizer pipeline.
-/

/-- None of the five escape sequences occurs in the text. -/
def entFree (s : List Char) : Prop :=
  ∀ pr ∈ entityPats, occursIn pr.1 s = false

/-!
The batching loop only depends on the truthy parse results, in order.
-/

/-- The truthy parse results (`if data:` keeps a result that is neither
`None` nor the empty dict). -/
def truthyRecs (docs : List (Option Record)) : List Record :=
  docs.filterMap (fun o => o.bind (fun d => if d = [] then none else some d))

/-- The batching loop restricted to the records that pass the `if data:`
test. -/
def runPure (bs : Nat) (batch : List Record) (writes : List (List Record)) :
    List Record → List (List Record)
  | [] => if batch ≠ [] then writes ++ [batch] else writes
  | r :: rest =>
    if bs ≤ (batch ++ [r]).length then runPure bs [] (writes ++ [batch ++ [r]]) rest
    else runPure bs (batch ++ [r]) writes rest

/-- The INCA keys that are only ever written from inside `META_SPEC`. -/
def incaSpecKeys : List String :=
  ["titre", "date_decision", "juridiction", "numero", "solution",
   "numero_affaire", "publie_bulletin", "formation", "date_decision_attaquee",
   "juridiction_attaquee", "siege_appel", "juridiction_premiere_instance",
   "lieu_premiere_instance", "demandeur", "defendeur", "president",
   "avocat_general", "avocats", "rapporteur", "ecli"]

/-!
Concrete example documents used to witness or refute the claims.
-/

/-- A document whose `META_JURI_JUDI` holds a `NUMERO_AFFAIRE` element with
no text (`<NUMERO_AFFAIRE/>`). -/
def docCapNA : Element :=
  .mk "TEXTE_JURI" [] none
    (.cons (.mk "META_JURI_JUDI" [] none
      (.cons (.mk "NUMERO_AFFAIRE" [] none .nil none) .nil) none) .nil) none

/-- A CNIL document carrying only a `META_CNIL` block. -/
def docCnilOnly : Element :=
  .mk "TEXTE" [] none (.cons (.mk "META_CNIL" [] none .nil none) .nil) none

/-- A CNIL document whose `CONTENU` element has text `"foo"` and tail text
`"bar"` (i.e. `<CONTENU>foo</CONTENU>bar` inside the root). -/
def docCnilTail : Element :=
  .mk "TEXTE" [] none
    (.cons (.mk "CONTENU" [] (some "foo") .nil (some "bar"))
      (.cons (.mk "META_CNIL" [] none .nil none) .nil)) none

/-- The `META_JURI` block of `docIncaTopJuri`, with a `TITRE` of `"T"`. -/
def docIncaTopJuriBlock : Element :=
  .mk "META_JURI" [] none (.cons (.mk "TITRE" [] (some "T") .nil none) .nil) none

/-- An INCA document with the specialized `META_JURI` block at top level
and no `META_SPEC` container. -/
def docIncaTopJuri : Element :=
  .mk "TEXTE" [] none (.cons docIncaTopJuriBlock .nil) none

/-- The `META_JURI_JUDI` block holding a `PUBLI_BULL` element with no
attributes. -/
def docIncaMJJ : Element :=
  .mk "META_JURI_JUDI" [] none
    (.cons (.mk "PUBLI_BULL" [] none .nil none) .nil) none

/-- An INCA document whose `META_SPEC`/`META_JURI_JUDI` holds a
`PUBLI_BULL` element without the `publie` attribute. -/
def docIncaPB : Element :=
  .mk "TEXTE" [] none
    (.cons (.mk "META_SPEC" [] none (.cons docIncaMJJ .nil) none) .nil) none

/-- A document with an empty root (no blocks at all). -/
def docEmpty : Element := .mk "TEXTE" [] none .nil none

/-- A JADE document with a `CONTENU` block. -/
def docJadeContenu : Element :=
  .mk "TEXTE" [] none (.cons (.mk "CONTENU" [] (some "hello") .nil none) .nil) none

/-- A JADE document with metadata but no `CONTENU` block. -/
def docJadeMetaOnly : Element :=
  .mk "TEXTE" [] none
    (.cons (.mk "META_JURI" [] none
      (.cons (.mk "TITRE" [] (some "T") .nil none) .nil) none) .nil) none

/-- The `ID` child of `docWithId`, with text `" x "`. -/
def docWithIdChild : Element := .mk "ID" [] (some " x ") .nil none

/-- An element with a single `ID` child whose text is `" x "`. -/
def docWithId : Element := .mk "M" [] none (.cons docWithIdChild .nil) none

instance entFreeDecidable (s : List Char) : Decidable (entFree s) :=
  inferInstanceAs (Decidable (∀ pr ∈ entityPats, occursIn pr.1 s = false))

/-- Seven parse results of which exactly five are truthy. -/
def docsFive : List (Option Record) :=
  [some capInit, none, some capInit, some capInit, none, some capInit, some capInit]

/-- The JADE result accumulation (JADE.py lines 141-144): truthy parse
results in order; failures contribute nothing. -/
def runJADE (files : List (Except String Element)) : List Record :=
  files.filterMap (fun f => (parseJADE f).bind (fun d => if d = [] then none else some d))

/-!
Supporting facts about `dropWhile`, `takeWhile`, `isPrefixOf`, `contains`
and `occursIn`, used by the normalizer lemmas below.
-/

theorem lenDropWhileLe (p : Char → Bool) (l : List Char) :
    (l.dropWhile p).length ≤ l.length := by
  induction l with
  | nil => simp
  | cons c t ih =>
    by_cases h : p c = true
    · simp only [List.dropWhile_cons, h, if_true]
      exact Nat.le_succ_of_le ih
    · simp [List.dropWhile_cons, h]

theorem dropWhileHeadFalse (p : Char → Bool) (l : List Char) (c : Char)
    (t : List Char) (h : l.dropWhile p = c :: t) : p c = false := by
  induction l with
  | nil => simp at h
  | cons a l' ih =>
    by_cases ha : p a = true
    · simp only [List.dropWhile_cons, ha, if_true] at h
      exact ih h
    · simp only [List.dropWhile_cons, ha, if_false] at h
      cases h
      simpa using ha

theorem dropWhileConsNeg (p : Char → Bool) (c : Char) (t : List Char)
    (h : p c = false) : (c :: t).dropWhile p = c :: t := by
  simp [List.dropWhile_cons, h]

theorem dropWhileIdem (p : Char → Bool) (l : List Char) :
    (l.dropWhile p).dropWhile p = l.dropWhile p := by
  cases h : l.dropWhile p with
  | nil => rfl
  | cons c t => exact dropWhileConsNeg p c t (dropWhileHeadFalse p l c t h)

theorem memOfMemDropWhile (p : Char → Bool) (a : Char) (l : List Char)
    (h : a ∈ l.dropWhile p) : a ∈ l := by
  induction l with
  | nil => simp at h
  | cons c t ih =>
    by_cases hc : p c = true
    · simp only [List.dropWhile_cons, hc, if_true] at h
      exact List.mem_cons_of_mem c (ih h)
    · simp only [List.dropWhile_cons, hc, if_false] at h
      exact h

theorem containsIffMem (l : List Char) (a : Char) :
    l.contains a = true ↔ a ∈ l := by
  induction l with
  | nil => simp
  | cons c t ih =>
    simp [List.contains_cons, Bool.or_eq_true, beq_iff_eq, ih, List.mem_cons]

theorem dropWhileNilOfNoGt (l : List Char) (h : l.contains '>' = false) :
    l.dropWhile notGt = [] := by
  induction l with
  | nil => rfl
  | cons c t ih =>
    simp only [List.contains_cons, Bool.or_eq_false_iff] at h
    have hc : notGt c = true := by
      simp only [notGt, bne_iff_ne, ne_eq]
      intro hcc
      rw [hcc] at h
      simp at h
    simp only [List.dropWhile_cons, hc, if_true]
    exact ih h.2

theorem noGtOfDropWhileNil (l : List Char) (h : l.dropWhile notGt = []) :
    l.contains '>' = false := by
  induction l with
  | nil => rfl
  | cons c t ih =>
    by_cases hc : notGt c = true
    · simp only [List.dropWhile_cons, hc, if_true] at h
      have hne : ('>' == c) = false := by
        have hcc : c ≠ '>' := by simpa [notGt] using hc
        exact beq_eq_false_iff_ne.mpr (Ne.symm hcc)
      simp only [List.contains_cons, Bool.or_eq_false_iff]
      exact ⟨hne, ih h⟩
    · simp only [List.dropWhile_cons, hc, if_false] at h
      simp at h

theorem isPrefixOfAppend (pat l t : List Char) (h : pat.isPrefixOf l = true) :
    pat.isPrefixOf (l ++ t) = true := by
  induction pat generalizing l with
  | nil => simp [List.isPrefixOf]
  | cons a p' ih =>
    cases l with
    | nil => simp [List.isPrefixOf] at h
    | cons b l' =>
      simp only [List.isPrefixOf, Bool.and_eq_true] at h
      simp only [List.cons_append, List.isPrefixOf, Bool.and_eq_true]
      exact ⟨h.1, ih l' h.2⟩

theorem isPrefixOfSelfAppend (l t : List Char) : l.isPrefixOf (l ++ t) = true := by
  induction l with
  | nil => simp [List.isPrefixOf]
  | cons a l' ih => simp [List.isPrefixOf, ih]

theorem memOfIsPrefixOf (pat l : List Char) (h : pat.isPrefixOf l = true)
    (a : Char) (ha : a ∈ pat) : a ∈ l := by
  induction pat generalizing l with
  | nil => simp at ha
  | cons b p' ih =>
    cases l with
    | nil => simp [List.isPrefixOf] at h
    | cons c l' =>
      simp only [List.isPrefixOf, Bool.and_eq_true, beq_iff_eq] at h
      rcases List.mem_cons.mp ha with hab | hap
      · exact List.mem_cons.mpr (Or.inl (hab.trans h.1))
      · exact List.mem_cons_of_mem c (ih l' h.2 hap)

theorem occursInNilPat (s : List Char) : occursIn [] s = true := by
  cases s with
  | nil => rfl
  | cons c t => simp [occursIn, List.isPrefixOf]

theorem occursInOfIsPrefixOf (pat s : List Char) (h : pat.isPrefixOf s = true) :
    occursIn pat s = true := by
  cases s with
  | nil =>
    cases pat with
    | nil => rfl
    | cons a p => simp [List.isPrefixOf] at h
  | cons c t => simp [occursIn, h]

theorem occursInAppendRight (pat l t : List Char) (h : occursIn pat t = true) :
    occursIn pat (l ++ t) = true := by
  induction l with
  | nil => simpa using h
  | cons c l' ih => simp [occursIn, ih]

theorem occursInAppendLeft (pat l t : List Char) (h : occursIn pat l = true) :
    occursIn pat (l ++ t) = true := by
  induction l with
  | nil =>
    simp only [occursIn, List.isEmpty_iff] at h
    subst h
    exact occursInNilPat t
  | cons c l' ih =>
    simp only [occursIn, Bool.or_eq_true] at h
    rcases h with h | h
    · have := isPrefixOfAppend pat (c :: l') t h
      simpa [occursIn] using occursInOfIsPrefixOf pat ((c :: l') ++ t) this
    · simp [occursIn, ih h]

/-!
Transport lemmas for the tag-stripping pass: occurrences of a space-free
pattern in the output already occur in the input, the output never contains
a removable tag again, and inputs without removable tags are unchanged.
-/

theorem tagSubFNil (n : Nat) : tagSubF n [] = [] := by
  cases n <;> rfl

theorem tagSubFIdOfNoGt (n : Nat) (s : List Char)
    (h : s.contains '>' = false) : tagSubF n s = s := by
  induction n generalizing s with
  | zero => rfl
  | succ n ih =>
    cases s with
    | nil => rfl
    | cons c rest =>
      simp only [List.contains_cons, Bool.or_eq_false_iff] at h
      have hdw : rest.dropWhile notGt = [] := dropWhileNilOfNoGt rest h.2
      have hcond : ¬ (c = '<' ∧ rest.takeWhile notGt ≠ [] ∧
          rest.dropWhile notGt ≠ []) := by
        rintro ⟨-, -, hd⟩
        exact hd hdw
      simp only [tagSubF, if_neg hcond]
      rw [ih rest (by simpa using h.2)]

theorem tagSubFPre (n : Nat) (s pat : List Char) (hn : s.length ≤ n)
    (hsp : ' ' ∉ pat) (h : pat.isPrefixOf (tagSubF n s) = true) :
    pat.isPrefixOf s = true := by
  induction n generalizing s pat with
  | zero =>
    exact h
  | succ n ih =>
    cases s with
    | nil =>
      rw [tagSubFNil] at h
      cases pat with
      | nil => simp [List.isPrefixOf]
      | cons a p' => simp [List.isPrefixOf] at h
    | cons c rest =>
      have hrest : rest.length ≤ n := by simpa using hn
      by_cases hcond : c = '<' ∧ rest.takeWhile notGt ≠ [] ∧
          rest.dropWhile notGt ≠ []
      · simp only [tagSubF, if_pos hcond] at h
        cases pat with
        | nil => simp [List.isPrefixOf]
        | cons a p' =>
          simp only [List.isPrefixOf, Bool.and_eq_true, beq_iff_eq] at h
          exact absurd (h.1 ▸ List.mem_cons_self a p') hsp
      · simp only [tagSubF, if_neg hcond] at h
        cases pat with
        | nil => simp [List.isPrefixOf]
        | cons a p' =>
          simp only [List.isPrefixOf, Bool.and_eq_true] at h ⊢
          refine ⟨h.1, ih rest p' hrest ?_ h.2⟩
          exact fun hm => hsp (List.mem_cons_of_mem a hm)

theorem tagSubFOccurs (n : Nat) (s pat : List Char) (hn : s.length ≤ n)
    (hsp : ' ' ∉ pat) (hne : pat ≠ [])
    (h : occursIn pat (tagSubF n s) = true) : occursIn pat s = true := by
  induction n generalizing s with
  | zero => exact h
  | succ n ih =>
    cases s with
    | nil =>
      rw [tagSubFNil] at h
      simp only [occursIn, List.isEmpty_iff] at h
      exact absurd h hne
    | cons c rest =>
      have hrest : rest.length ≤ n := by simpa using hn
      by_cases hcond : c = '<' ∧ rest.takeWhile notGt ≠ [] ∧
          rest.dropWhile notGt ≠ []
      · simp only [tagSubF, if_pos hcond] at h
        simp only [occursIn, Bool.or_eq_true] at h
        rcases h with h | h
        · cases pat with
          | nil => exact absurd rfl hne
          | cons a p' =>
            simp only [List.isPrefixOf, Bool.and_eq_true, beq_iff_eq] at h
            exact absurd (h.1 ▸ List.mem_cons_self a p') hsp
        · have htl : ((rest.dropWhile notGt).tail).length ≤ n := by
            have h1 := lenDropWhileLe notGt rest
            have h2 : ((rest.dropWhile notGt).tail).length ≤
                (rest.dropWhile notGt).length := by
              cases rest.dropWhile notGt <;> simp
            omega
          have hocc := ih ((rest.dropWhile notGt).tail) htl h
          have hoccdw : occursIn pat (rest.dropWhile notGt) = true := by
            rcases hdw : rest.dropWhile notGt with _ | ⟨d, t⟩
            · rw [hdw] at hocc
              simpa using hocc
            · rw [hdw] at hocc
              simp only [List.tail_cons] at hocc
              simp [occursIn, hocc]
          have : occursIn pat (rest.takeWhile notGt ++ rest.dropWhile notGt) = true :=
            occursInAppendRight pat _ _ hoccdw
          rw [List.takeWhile_append_dropWhile] at this
          simp [occursIn, this]
      · simp only [tagSubF, if_neg hcond] at h
        simp only [occursIn, Bool.or_eq_true] at h ⊢
        rcases h with h | h
        · cases pat with
          | nil => exact absurd rfl hne
          | cons a p' =>
            simp only [List.isPrefixOf, Bool.and_eq_true] at h ⊢
            refine Or.inl ⟨h.1, tagSubFPre n rest p' hrest ?_ h.2⟩
            exact fun hm => hsp (List.mem_cons_of_mem a hm)
        · exact Or.inr (ih rest hrest h)

theorem noTagBTail (c : Char) (rest : List Char)
    (h : noTagB (c :: rest) = true) : noTagB rest = true := by
  simp only [noTagB, Bool.and_eq_true] at h
  exact h.2

theorem noTagBDropWhile (p : Char → Bool) (l : List Char)
    (h : noTagB l = true) : noTagB (l.dropWhile p) = true := by
  induction l with
  | nil => exact h
  | cons c t ih =>
    by_cases hc : p c = true
    · simp only [List.dropWhile_cons, hc, if_true]
      exact ih (noTagBTail c t h)
    · simp only [List.dropWhile_cons, hc, if_false]
      exact h

theorem noTagBOfPre (pat l : List Char) (hp : pat.isPrefixOf l = true)
    (h : noTagB l = true) : noTagB pat = true := by
  induction pat generalizing l with
  | nil => rfl
  | cons a p' ih =>
    cases l with
    | nil => simp [List.isPrefixOf] at hp
    | cons b l' =>
      simp only [List.isPrefixOf, Bool.and_eq_true, beq_iff_eq] at hp
      obtain ⟨hab, hp⟩ := hp
      subst hab
      simp only [noTagB, Bool.and_eq_true] at h ⊢
      refine ⟨?_, ih l' hp h.2⟩
      by_cases hb : a = '<'
      · simp only [hb, if_true] at h ⊢
        rcases Bool.or_eq_true _ _ |>.mp h.1 with hh | hh
        · rw [beq_iff_eq] at hh
          cases p' with
          | nil => simp
          | cons d p'' =>
            cases l' with
            | nil => simp [List.isPrefixOf] at hp
            | cons e l'' =>
              simp only [List.isPrefixOf, Bool.and_eq_true, beq_iff_eq] at hp
              simp only [List.head?_cons, Option.some.injEq] at hh
              simp [hp.1, hh]
        · simp only [Bool.not_eq_true'] at hh
          have hnm : ('>' ∉ p') := by
            intro hmem
            have : '>' ∈ l' := memOfIsPrefixOf p' l' hp '>' hmem
            rw [← containsIffMem] at this
            rw [hh] at this
            simp at this
          have hpc : p'.contains '>' = false := by
            rcases hcc : p'.contains '>' with _ | _
            · rfl
            · exact absurd ((containsIffMem p' '>').mp hcc) hnm
          simp [hpc, hnm]
      · simp [hb]

theorem tagSubFEqOfNoTag (n : Nat) (s : List Char) (hn : s.length ≤ n)
    (h : noTagB s = true) : tagSubF n s = s := by
  induction n generalizing s with
  | zero => rfl
  | succ n ih =>
    cases s with
    | nil => rfl
    | cons c rest =>
      have hrest : rest.length ≤ n := by simpa using hn
      have hrtag := noTagBTail c rest h
      by_cases hc : c = '<'
      · simp only [noTagB, hc, if_true, Bool.and_eq_true] at h
        rcases Bool.or_eq_true _ _ |>.mp h.1 with hh | hh
        · rw [beq_iff_eq] at hh
          cases rest with
          | nil => simp at hh
          | cons d rest2 =>
            simp only [List.head?_cons, Option.some.injEq] at hh
            have htw : (d :: rest2).takeWhile notGt = [] := by
              rw [hh]
              simp [List.takeWhile_cons, notGt]
            have hcond : ¬ (c = '<' ∧ (d :: rest2).takeWhile notGt ≠ [] ∧
                (d :: rest2).dropWhile notGt ≠ []) := by
              rintro ⟨-, htw', -⟩
              exact htw' htw
            simp only [tagSubF, if_neg hcond]
            rw [ih (d :: rest2) hrest hrtag]
        · simp only [Bool.not_eq_true'] at hh
          have hdw : rest.dropWhile notGt = [] := dropWhileNilOfNoGt rest hh
          have hcond : ¬ (c = '<' ∧ rest.takeWhile notGt ≠ [] ∧
              rest.dropWhile notGt ≠ []) := by
            rintro ⟨-, -, hd⟩
            exact hd hdw
          simp only [tagSubF, if_neg hcond]
          rw [ih rest hrest hrtag]
      · have hcond : ¬ (c = '<' ∧ rest.takeWhile notGt ≠ [] ∧
            rest.dropWhile notGt ≠ []) := by
          rintro ⟨hc', -, -⟩
          exact hc hc'
        simp only [tagSubF, if_neg hcond]
        rw [ih rest hrest hrtag]

theorem tagSubFNoTag (n : Nat) (s : List Char) (hn : s.length ≤ n) :
    noTagB (tagSubF n s) = true := by
  induction n generalizing s with
  | zero =>
    have : s = [] := List.length_eq_zero.mp (Nat.le_zero.mp hn)
    subst this
    rfl
  | succ n ih =>
    cases s with
    | nil => rw [tagSubFNil]; rfl
    | cons c rest =>
      have hrest : rest.length ≤ n := by simpa using hn
      by_cases hcond : c = '<' ∧ rest.takeWhile notGt ≠ [] ∧
          rest.dropWhile notGt ≠ []
      · simp only [tagSubF, if_pos hcond]
        have htl : ((rest.dropWhile notGt).tail).length ≤ n := by
          have h1 := lenDropWhileLe notGt rest
          have h2 : ((rest.dropWhile notGt).tail).length ≤
              (rest.dropWhile notGt).length := by
            cases rest.dropWhile notGt <;> simp
          omega
        simp only [noTagB, Bool.and_eq_true]
        constructor
        · simp
        · exact ih _ htl
      · simp only [tagSubF, if_neg hcond]
        simp only [noTagB, Bool.and_eq_true]
        refine ⟨?_, ih rest hrest⟩
        by_cases hc : c = '<'
        · simp only [hc, if_true]
          have hor : rest.takeWhile notGt = [] ∨ rest.dropWhile notGt = [] := by
            by_cases htw : rest.takeWhile notGt = []
            · exact Or.inl htw
            · by_cases hdw : rest.dropWhile notGt = []
              · exact Or.inr hdw
              · exact absurd ⟨hc, htw, hdw⟩ hcond
          rcases hor with htw | hdw
          · cases rest with
            | nil =>
              rw [tagSubFNil]
              simp
            | cons d rest2 =>
              have hd : notGt d = false := by
                by_cases hdd : notGt d = true
                · simp [List.takeWhile_cons, hdd] at htw
                · simpa using hdd
              have hdgt : d = '>' := by
                simpa [notGt] using hd
              have hlen2 : (d :: rest2).length ≤ n := hrest
              cases n with
              | zero => simp at hlen2
              | succ m =>
                have hcond2 : ¬ (d = '<' ∧ rest2.takeWhile notGt ≠ [] ∧
                    rest2.dropWhile notGt ≠ []) := by
                  rintro ⟨hd', -, -⟩
                  rw [hdgt] at hd'
                  exact absurd hd' (by decide)
                simp only [tagSubF, if_neg hcond2]
                simp [hdgt]
          · have hng : rest.contains '>' = false := noGtOfDropWhileNil rest hdw
            rw [tagSubFIdOfNoGt n rest hng]
            have : '>' ∉ rest := by
              intro hm
              rw [← containsIffMem] at hm
              rw [hng] at hm
              simp at hm
            simp [hng, this]
        · simp [hc]

/-!
Analogous lemmas for the whitespace-collapsing pass.
-/

theorem collapseFNil (n : Nat) : collapseF n [] = [] := by
  cases n <;> rfl

theorem collapsedBTail (c : Char) (rest : List Char)
    (h : collapsedB (c :: rest) = true) : collapsedB rest = true := by
  simp only [collapsedB, Bool.and_eq_true] at h
  exact h.2

theorem collapsedBDropWhile (p : Char → Bool) (l : List Char)
    (h : collapsedB l = true) : collapsedB (l.dropWhile p) = true := by
  induction l with
  | nil => exact h
  | cons c t ih =>
    by_cases hc : p c = true
    · simp only [List.dropWhile_cons, hc, if_true]
      exact ih (collapsedBTail c t h)
    · simp only [List.dropWhile_cons, hc, if_false]
      exact h

theorem collapsedBOfPre (pat l : List Char) (hp : pat.isPrefixOf l = true)
    (h : collapsedB l = true) : collapsedB pat = true := by
  induction pat generalizing l with
  | nil => rfl
  | cons a p' ih =>
    cases l with
    | nil => simp [List.isPrefixOf] at hp
    | cons b l' =>
      simp only [List.isPrefixOf, Bool.and_eq_true, beq_iff_eq] at hp
      obtain ⟨hab, hp⟩ := hp
      subst hab
      simp only [collapsedB, Bool.and_eq_true] at h ⊢
      refine ⟨?_, ih l' hp h.2⟩
      by_cases hb : isSpace a = true
      · simp only [hb, if_true, Bool.and_eq_true] at h ⊢
        refine ⟨h.1.1, ?_⟩
        cases p' with
        | nil => simp
        | cons d p'' =>
          cases l' with
          | nil => simp [List.isPrefixOf] at hp
          | cons e l'' =>
            simp only [List.isPrefixOf, Bool.and_eq_true, beq_iff_eq] at hp
            have h2 := h.1.2
            simp only [List.head?_cons, Option.elim] at h2 ⊢
            rw [hp.1]
            exact h2
      · simp only [Bool.not_eq_true] at hb
        simp [hb]

theorem collapseFEqOfCollapsed (n : Nat) (s : List Char) (hn : s.length ≤ n)
    (h : collapsedB s = true) : collapseF n s = s := by
  induction n generalizing s with
  | zero => rfl
  | succ n ih =>
    cases s with
    | nil => rfl
    | cons c rest =>
      have hrest : rest.length ≤ n := by simpa using hn
      have hrtl := collapsedBTail c rest h
      by_cases hsp : isSpace c = true
      · simp only [collapsedB, hsp, if_true, Bool.and_eq_true, beq_iff_eq] at h
        obtain ⟨⟨hc, hhd⟩, -⟩ := h
        have hdw : rest.dropWhile isSpace = rest := by
          cases rest with
          | nil => rfl
          | cons d t =>
            simp only [List.head?_cons, Option.elim, Bool.not_eq_true'] at hhd
            exact dropWhileConsNeg isSpace d t hhd
        simp only [collapseF, hsp, if_true, hdw]
        rw [ih rest hrest hrtl, hc]
      · simp only [Bool.not_eq_true] at hsp
        simp only [collapseF, hsp, Bool.false_eq_true, if_false]
        rw [ih rest hrest hrtl]

theorem collapseFCollapsed (n : Nat) (s : List Char) (hn : s.length ≤ n) :
    collapsedB (collapseF n s) = true := by
  induction n generalizing s with
  | zero =>
    have : s = [] := List.length_eq_zero.mp (Nat.le_zero.mp hn)
    subst this
    rfl
  | succ n ih =>
    cases s with
    | nil => rw [collapseFNil]; rfl
    | cons c rest =>
      have hrest : rest.length ≤ n := by simpa using hn
      by_cases hsp : isSpace c = true
      · simp only [collapseF, hsp, if_true]
        have hr' : (rest.dropWhile isSpace).length ≤ n := by
          have := lenDropWhileLe isSpace rest
          omega
        simp only [collapsedB, Bool.and_eq_true]
        refine ⟨?_, ih _ hr'⟩
        have hsp2 : isSpace ' ' = true := by decide
        simp only [hsp2, if_true, Bool.and_eq_true, beq_self_eq_true, true_and]
        rcases hdw : rest.dropWhile isSpace with _ | ⟨d, t⟩
        · rw [collapseFNil]
          simp
        · have hd : isSpace d = false := dropWhileHeadFalse isSpace rest d t hdw
          have hlen : (d :: t).length ≤ n := by
            rw [← hdw]
            exact hr'
          cases n with
          | zero => simp at hlen
          | succ m =>
            simp only [collapseF, hd, Bool.false_eq_true, if_false]
            simp [hd]
      · simp only [Bool.not_eq_true] at hsp
        simp only [collapseF, hsp, Bool.false_eq_true, if_false]
        simp only [collapsedB, Bool.and_eq_true]
        refine ⟨?_, ih rest hrest⟩
        simp [hsp]

theorem collapseFPre (n : Nat) (s pat : List Char) (hn : s.length ≤ n)
    (hsp : ∀ a ∈ pat, isSpace a = false)
    (h : pat.isPrefixOf (collapseF n s) = true) : pat.isPrefixOf s = true := by
  induction n generalizing s pat with
  | zero => exact h
  | succ n ih =>
    cases s with
    | nil =>
      rw [collapseFNil] at h
      cases pat with
      | nil => simp [List.isPrefixOf]
      | cons a p' => simp [List.isPrefixOf] at h
    | cons c rest =>
      have hrest : rest.length ≤ n := by simpa using hn
      by_cases hc : isSpace c = true
      · simp only [collapseF, hc, if_true] at h
        cases pat with
        | nil => simp [List.isPrefixOf]
        | cons a p' =>
          simp only [List.isPrefixOf, Bool.and_eq_true, beq_iff_eq] at h
          have := hsp a (List.mem_cons_self a p')
          rw [h.1] at this
          exact absurd this (by decide)
      · simp only [Bool.not_eq_true] at hc
        simp only [collapseF, hc, Bool.false_eq_true, if_false] at h
        cases pat with
        | nil => simp [List.isPrefixOf]
        | cons a p' =>
          simp only [List.isPrefixOf, Bool.and_eq_true] at h ⊢
          refine ⟨h.1, ih rest p' hrest ?_ h.2⟩
          exact fun x hx => hsp x (List.mem_cons_of_mem a hx)

theorem collapseFOccurs (n : Nat) (s pat : List Char) (hn : s.length ≤ n)
    (hsp : ∀ a ∈ pat, isSpace a = false) (hne : pat ≠ [])
    (h : occursIn pat (collapseF n s) = true) : occursIn pat s = true := by
  induction n generalizing s with
  | zero => exact h
  | succ n ih =>
    cases s with
    | nil =>
      rw [collapseFNil] at h
      simp only [occursIn, List.isEmpty_iff] at h
      exact absurd h hne
    | cons c rest =>
      have hrest : rest.length ≤ n := by simpa using hn
      by_cases hc : isSpace c = true
      · simp only [collapseF, hc, if_true] at h
        simp only [occursIn, Bool.or_eq_true] at h
        rcases h with h | h
        · cases pat with
          | nil => exact absurd rfl hne
          | cons a p' =>
            simp only [List.isPrefixOf, Bool.and_eq_true, beq_iff_eq] at h
            have := hsp a (List.mem_cons_self a p')
            rw [h.1] at this
            exact absurd this (by decide)
        · have hr' : (rest.dropWhile isSpace).length ≤ n := by
            have := lenDropWhileLe isSpace rest
            omega
          have hocc := ih (rest.dropWhile isSpace) hr' h
          have : occursIn pat (rest.takeWhile isSpace ++ rest.dropWhile isSpace) = true :=
            occursInAppendRight pat _ _ hocc
          rw [List.takeWhile_append_dropWhile] at this
          simp [occursIn, this]
      · simp only [Bool.not_eq_true] at hc
        simp only [collapseF, hc, Bool.false_eq_true, if_false] at h
        simp only [occursIn, Bool.or_eq_true] at h ⊢
        rcases h with h | h
        · cases pat with
          | nil => exact absurd rfl hne
          | cons a p' =>
            simp only [List.isPrefixOf, Bool.and_eq_true] at h ⊢
            refine Or.inl ⟨h.1, collapseFPre n rest p' hrest ?_ h.2⟩
            exact fun x hx => hsp x (List.mem_cons_of_mem a hx)
        · exact Or.inr (ih rest hrest h)

theorem collapseFMem (n : Nat) (s : List Char) (a : Char)
    (h : a ∈ collapseF n s) : a ∈ s ∨ a = ' ' := by
  induction n generalizing s with
  | zero => exact Or.inl h
  | succ n ih =>
    cases s with
    | nil =>
      rw [collapseFNil] at h
      simp at h
    | cons c rest =>
      by_cases hc : isSpace c = true
      · simp only [collapseF, hc, if_true] at h
        rcases List.mem_cons.mp h with h | h
        · exact Or.inr h
        · rcases ih _ h with h | h
          · exact Or.inl (List.mem_cons_of_mem c (memOfMemDropWhile isSpace a rest h))
          · exact Or.inr h
      · simp only [Bool.not_eq_true] at hc
        simp only [collapseF, hc, Bool.false_eq_true, if_false] at h
        rcases List.mem_cons.mp h with h | h
        · exact Or.inl (h ▸ List.mem_cons_self c rest)
        · rcases ih _ h with h | h
          · exact Or.inl (List.mem_cons_of_mem c h)
          · exact Or.inr h

theorem collapseFNoTag (n : Nat) (s : List Char) (hn : s.length ≤ n)
    (h : noTagB s = true) : noTagB (collapseF n s) = true := by
  induction n generalizing s with
  | zero => exact h
  | succ n ih =>
    cases s with
    | nil => rw [collapseFNil]; rfl
    | cons c rest =>
      have hrest : rest.length ≤ n := by simpa using hn
      have hrtag := noTagBTail c rest h
      by_cases hc : isSpace c = true
      · simp only [collapseF, hc, if_true]
        have hr' : (rest.dropWhile isSpace).length ≤ n := by
          have := lenDropWhileLe isSpace rest
          omega
        simp only [noTagB, Bool.and_eq_true]
        refine ⟨by simp, ih _ hr' (noTagBDropWhile isSpace rest hrtag)⟩
      · simp only [Bool.not_eq_true] at hc
        simp only [collapseF, hc, Bool.false_eq_true, if_false]
        simp only [noTagB, Bool.and_eq_true]
        refine ⟨?_, ih rest hrest hrtag⟩
        by_cases hlt : c = '<'
        · simp only [noTagB, hlt, if_true, Bool.and_eq_true, Bool.or_eq_true] at h
          simp only [hlt, if_true, Bool.or_eq_true]
          rcases h.1 with hh | hh
          · rw [beq_iff_eq] at hh
            cases rest with
            | nil => simp at hh
            | cons d t =>
              simp only [List.head?_cons, Option.some.injEq] at hh
              subst hh
              have hdns : isSpace '>' = false := by decide
              have hlen : (('>' : Char) :: t).length ≤ n := hrest
              cases n with
              | zero => simp at hlen
              | succ m =>
                simp only [collapseF, hdns, Bool.false_eq_true, if_false]
                simp
          · simp only [Bool.not_eq_true'] at hh
            refine Or.inr ?_
            have : ('>' : Char) ∉ collapseF n rest := by
              intro hm
              rcases collapseFMem n rest '>' hm with hmm | hmm
              · rw [← containsIffMem] at hmm
                rw [hh] at hmm
                simp at hmm
              · simp at hmm
            rcases hcc : (collapseF n rest).contains '>' with _ | _
            · simp
            · exact absurd ((containsIffMem _ '>').mp hcc) this
        · simp [hlt]

/-!
Replacement and strip lemmas.
-/

theorem replaceFEqOfNotOccurs (pat rep : List Char) (n : Nat) (s : List Char)
    (h : occursIn pat s = false) : replaceF pat rep n s = s := by
  induction n generalizing s with
  | zero => rfl
  | succ n ih =>
    cases s with
    | nil => rfl
    | cons c rest =>
      simp only [occursIn, Bool.or_eq_false_iff] at h
      have hcond : ¬ (pat ≠ [] ∧ pat.isPrefixOf (c :: rest) = true) := by
        rintro ⟨-, hp⟩
        rw [h.1] at hp
        simp at hp
      simp only [replaceF, if_neg hcond]
      rw [ih rest h.2]

theorem replaceLEqOfNotOccurs (pat rep s : List Char)
    (h : occursIn pat s = false) : replaceL pat rep s = s :=
  replaceFEqOfNotOccurs pat rep s.length s h

theorem stripRAppend (s : List Char) :
    stripR s ++ (s.reverse.takeWhile isSpace).reverse = s := by
  unfold stripR
  rw [← List.reverse_append, List.takeWhile_append_dropWhile, List.reverse_reverse]

theorem stripRPreSelf (s : List Char) : (stripR s).isPrefixOf s = true := by
  have := isPrefixOfSelfAppend (stripR s) ((s.reverse.takeWhile isSpace).reverse)
  rwa [stripRAppend s] at this

theorem stripROccurs (pat s : List Char)
    (h : occursIn pat (stripR s) = true) : occursIn pat s = true := by
  have := occursInAppendLeft pat (stripR s) ((s.reverse.takeWhile isSpace).reverse) h
  rwa [stripRAppend s] at this

theorem stripLOccurs (pat s : List Char)
    (h : occursIn pat (stripL s) = true) : occursIn pat s = true := by
  have := occursInAppendRight pat (s.takeWhile isSpace) (s.dropWhile isSpace) h
  rwa [List.takeWhile_append_dropWhile] at this

theorem stripLIdem (s : List Char) : stripL (stripL s) = stripL s :=
  dropWhileIdem isSpace s

theorem stripRIdem (s : List Char) : stripR (stripR s) = stripR s := by
  unfold stripR
  rw [List.reverse_reverse, dropWhileIdem]

theorem dropWhileEqSelfHead (p : Char → Bool) (c : Char) (rest : List Char)
    (h : (c :: rest).dropWhile p = c :: rest) : p c = false := by
  by_cases hc : p c = true
  · simp only [List.dropWhile_cons, hc, if_true] at h
    have h1 := lenDropWhileLe p rest
    have h2 : (List.dropWhile p rest).length = (c :: rest).length := by rw [h]
    simp only [List.length_cons] at h2
    omega
  · simpa using hc

theorem stripLOfStripR (t : List Char) (h : stripL t = t) :
    stripL (stripR t) = stripR t := by
  rcases hs : stripR t with _ | ⟨d, u⟩
  · rfl
  · have hpre : (d :: u).isPrefixOf t = true := by
      rw [← hs]
      exact stripRPreSelf t
    cases t with
    | nil => simp [List.isPrefixOf] at hpre
    | cons e t' =>
      simp only [List.isPrefixOf, Bool.and_eq_true, beq_iff_eq] at hpre
      have hd : isSpace d = false := by
        rw [hpre.1]
        exact dropWhileEqSelfHead isSpace e t' h
      exact dropWhileConsNeg isSpace d u hd

theorem stripBothIdem (s : List Char) : stripBoth (stripBoth s) = stripBoth s := by
  show stripR (stripL (stripR (stripL s))) = stripR (stripL s)
  rw [stripLOfStripR (stripL s) (stripLIdem s), stripRIdem]

theorem entityReplaceAllEqOfEntFree (s : List Char) (h : entFree s) :
    entityReplaceAll s = s := by
  have h1 := h (['&', 'a', 'm', 'p', ';'], ['&']) (by decide)
  have h2 := h (['&', 'l', 't', ';'], ['<']) (by decide)
  have h3 := h (['&', 'g', 't', ';'], ['>']) (by decide)
  have h4 := h (['&', 'q', 'u', 'o', 't', ';'], ['"']) (by decide)
  have h5 := h (['&', 'a', 'p', 'o', 's', ';'], ['\'']) (by decide)
  simp only [entityReplaceAll, entityPats, List.foldl_cons, List.foldl_nil]
  rw [replaceLEqOfNotOccurs _ _ _ h1, replaceLEqOfNotOccurs _ _ _ h2,
    replaceLEqOfNotOccurs _ _ _ h3, replaceLEqOfNotOccurs _ _ _ h4,
    replaceLEqOfNotOccurs _ _ _ h5]

theorem entFreeTagSub (s : List Char) (h : entFree s) : entFree (tagSub s) := by
  intro pr hpr
  have hside : ' ' ∉ pr.1 ∧ pr.1 ≠ [] := by
    fin_cases hpr <;> exact ⟨by decide, by decide⟩
  cases hocc : occursIn pr.1 (tagSub s) with
  | false => rfl
  | true =>
    have := tagSubFOccurs s.length s pr.1 (Nat.le_refl _) hside.1 hside.2 hocc
    rw [h pr hpr] at this
    simp at this

theorem entFreeCollapse (s : List Char) (h : entFree s) : entFree (collapse s) := by
  intro pr hpr
  have hside : (∀ a ∈ pr.1, isSpace a = false) ∧ pr.1 ≠ [] := by
    fin_cases hpr <;> exact ⟨by decide, by decide⟩
  cases hocc : occursIn pr.1 (collapse s) with
  | false => rfl
  | true =>
    have := collapseFOccurs s.length s pr.1 (Nat.le_refl _) hside.1 hside.2 hocc
    rw [h pr hpr] at this
    simp at this

theorem entFreeStripBoth (s : List Char) (h : entFree s) : entFree (stripBoth s) := by
  intro pr hpr
  cases hocc : occursIn pr.1 (stripBoth s) with
  | false => rfl
  | true =>
    have := stripLOccurs pr.1 s (stripROccurs pr.1 (stripL s) hocc)
    rw [h pr hpr] at this
    simp at this

/-!
Idempotence of the normalizer on entity-free input.
-/

theorem tagSubEqOfNoTag (s : List Char) (h : noTagB s = true) : tagSub s = s :=
  tagSubFEqOfNoTag s.length s (Nat.le_refl _) h

theorem tagSubNoTag (s : List Char) : noTagB (tagSub s) = true :=
  tagSubFNoTag s.length s (Nat.le_refl _)

theorem collapseEqOfCollapsed (s : List Char) (h : collapsedB s = true) :
    collapse s = s :=
  collapseFEqOfCollapsed s.length s (Nat.le_refl _) h

theorem collapseCollapsed (s : List Char) : collapsedB (collapse s) = true :=
  collapseFCollapsed s.length s (Nat.le_refl _)

theorem collapseNoTag (s : List Char) (h : noTagB s = true) :
    noTagB (collapse s) = true :=
  collapseFNoTag s.length s (Nat.le_refl _) h

theorem noTagBStripBoth (s : List Char) (h : noTagB s = true) :
    noTagB (stripBoth s) = true :=
  noTagBOfPre _ _ (stripRPreSelf (stripL s)) (noTagBDropWhile isSpace s h)

theorem collapsedBStripBoth (s : List Char) (h : collapsedB s = true) :
    collapsedB (stripBoth s) = true :=
  collapsedBOfPre _ _ (stripRPreSelf (stripL s)) (collapsedBDropWhile isSpace s h)

theorem cleanTextLIdem (l : List Char) (h : entFree l) :
    cleanTextL (cleanTextL l) = cleanTextL l := by
  by_cases hl : l = []
  · subst hl
    rfl
  · have hf0 : entFree (tagSub l) := entFreeTagSub l h
    have hf1 : entFree (collapse (tagSub l)) := entFreeCollapse _ hf0
    have hstep : cleanTextL l = stripBoth (collapse (tagSub l)) := by
      unfold cleanTextL
      rw [if_neg hl, entityReplaceAllEqOfEntFree _ hf1]
    have hnt1 : noTagB (collapse (tagSub l)) = true :=
      collapseNoTag _ (tagSubNoTag l)
    have hnty : noTagB (cleanTextL l) = true := by
      rw [hstep]
      exact noTagBStripBoth _ hnt1
    have hcby : collapsedB (cleanTextL l) = true := by
      rw [hstep]
      exact collapsedBStripBoth _ (collapseCollapsed (tagSub l))
    have hfy : entFree (cleanTextL l) := by
      rw [hstep]
      exact entFreeStripBoth _ hf1
    by_cases hyn : cleanTextL l = []
    · rw [hyn]
      rfl
    · conv_lhs => rw [cleanTextL]
      rw [if_neg hyn, tagSubEqOfNoTag _ hnty, collapseEqOfCollapsed _ hcby,
        entityReplaceAllEqOfEntFree _ hfy, hstep, stripBothIdem]

/-!
Facts about the record operations: `setKey` on an existing key preserves
the key list; every binding of an updated record comes either from the
original record or from the update list; lookups of untouched keys are
unchanged.
-/

theorem containsIffMemS (l : List String) (a : String) :
    l.contains a = true ↔ a ∈ l := by
  induction l with
  | nil => simp
  | cons c t ih =>
    simp [List.contains_cons, Bool.or_eq_true, beq_iff_eq, ih, List.mem_cons]

theorem recKeysSetKey (d : Record) (k : String) (v : Option String)
    (h : k ∈ recKeys d) : recKeys (setKey d k v) = recKeys d := by
  induction d with
  | nil => simp [recKeys] at h
  | cons kv rest ih =>
    obtain ⟨k', v'⟩ := kv
    by_cases hk : k' = k
    · simp [setKey, hk, recKeys]
    · simp only [recKeys, List.map_cons] at h ⊢
      simp only [setKey, hk, if_false, List.map_cons]
      rcases List.mem_cons.mp h with h | h
      · exact absurd h.symm hk
      · have := ih h
        simp only [recKeys] at this
        rw [this]

theorem recKeysUpdateFields (d : Record) (kvs : List (String × Option String))
    (h : ∀ k ∈ kvs.map Prod.fst, k ∈ recKeys d) :
    recKeys (updateFields d kvs) = recKeys d := by
  induction kvs generalizing d with
  | nil => rfl
  | cons kv rest ih =>
    show recKeys (updateFields (setKey d kv.1 kv.2) rest) = recKeys d
    have hk : kv.1 ∈ recKeys d := h kv.1 (by simp)
    have hkeys := recKeysSetKey d kv.1 kv.2 hk
    rw [ih (setKey d kv.1 kv.2) ?_, hkeys]
    intro k hkk
    rw [hkeys]
    exact h k (by simp [hkk])

theorem memSetKey (d : Record) (k : String) (v : Option String)
    (k' : String) (v' : Option String) (h : (k', v') ∈ setKey d k v) :
    (k', v') ∈ d ∨ (k' = k ∧ v' = v) := by
  induction d with
  | nil =>
    simp only [setKey, List.mem_singleton, Prod.mk.injEq] at h
    exact Or.inr h
  | cons kv rest ih =>
    obtain ⟨a, b⟩ := kv
    by_cases hk : a = k
    · simp only [setKey, hk, if_true] at h
      rcases List.mem_cons.mp h with h | h
      · rw [Prod.mk.injEq] at h
        exact Or.inr ⟨h.1, h.2⟩
      · exact Or.inl (List.mem_cons_of_mem _ h)
    · simp only [setKey, hk, if_false] at h
      rcases List.mem_cons.mp h with h | h
      · exact Or.inl (List.mem_cons.mpr (Or.inl h))
      · rcases ih h with h | h
        · exact Or.inl (List.mem_cons_of_mem _ h)
        · exact Or.inr h

theorem memUpdateFields (d : Record) (kvs : List (String × Option String))
    (k : String) (v : Option String) (h : (k, v) ∈ updateFields d kvs) :
    (k, v) ∈ d ∨ (k, v) ∈ kvs := by
  induction kvs generalizing d with
  | nil => exact Or.inl h
  | cons kv rest ih =>
    have h' : (k, v) ∈ updateFields (setKey d kv.1 kv.2) rest := h
    rcases ih (setKey d kv.1 kv.2) h' with h | h
    · rcases memSetKey d kv.1 kv.2 k v h with h | h
      · exact Or.inl h
      · refine Or.inr (List.mem_cons.mpr (Or.inl ?_))
        rw [Prod.mk.injEq]
        exact h
    · exact Or.inr (List.mem_cons_of_mem _ h)

theorem lookupValSetKeyNe (d : Record) (k : String) (v : Option String)
    (k' : String) (h : k' ≠ k) : lookupVal (setKey d k v) k' = lookupVal d k' := by
  induction d with
  | nil =>
    simp only [setKey, lookupVal]
    rw [if_neg (fun hh => h hh.symm)]
  | cons kv rest ih =>
    obtain ⟨a, b⟩ := kv
    by_cases hk : a = k
    · simp only [setKey, hk, if_true, lookupVal]
      have hka : ¬ (k = k') := fun hh => h hh.symm
      rw [if_neg hka, if_neg hka]
    · simp only [setKey, hk, if_false, lookupVal]
      by_cases ha : a = k'
      · rw [if_pos ha, if_pos ha]
      · rw [if_neg ha, if_neg ha]
        exact ih

theorem lookupValSetKeyEq (d : Record) (k : String) (v : Option String)
    (h : k ∈ recKeys d) : lookupVal (setKey d k v) k = some v := by
  induction d with
  | nil => simp [recKeys] at h
  | cons kv rest ih =>
    obtain ⟨a, b⟩ := kv
    by_cases hk : a = k
    · simp [setKey, hk, lookupVal]
    · simp only [setKey, hk, if_false, lookupVal, if_neg hk]
      simp only [recKeys, List.map_cons, List.mem_cons] at h
      rcases h with h | h
      · exact absurd h.symm hk
      · exact ih h

theorem lookupValUpdateFieldsNi (d : Record) (kvs : List (String × Option String))
    (k : String) (h : k ∉ kvs.map Prod.fst) :
    lookupVal (updateFields d kvs) k = lookupVal d k := by
  induction kvs generalizing d with
  | nil => rfl
  | cons kv rest ih =>
    show lookupVal (updateFields (setKey d kv.1 kv.2) rest) k = _
    have h1 : k ∉ rest.map Prod.fst := fun hh => h (by simp [hh])
    have h2 : k ≠ kv.1 := fun hh => h (by simp [hh])
    rw [ih (setKey d kv.1 kv.2) h1, lookupValSetKeyNe d kv.1 kv.2 k h2]

theorem recKeysInit (ks : List String) : recKeys (initRecord ks) = ks := by
  induction ks with
  | nil => rfl
  | cons a t ih => simp [initRecord, recKeys] at ih ⊢; exact ih

theorem lookupValInit (ks : List String) (k : String) (h : k ∈ ks) :
    lookupVal (initRecord ks) k = some (some "") := by
  induction ks with
  | nil => simp at h
  | cons a t ih =>
    by_cases ha : a = k
    · simp [initRecord, lookupVal, ha]
    · simp only [initRecord, List.map_cons, lookupVal, if_neg ha]
      rcases List.mem_cons.mp h with h | h
      · exact absurd h.symm ha
      · exact ih h

theorem memInitRecord (ks : List String) (k : String) (v : Option String)
    (h : (k, v) ∈ initRecord ks) : v = some "" := by
  induction ks with
  | nil => simp [initRecord] at h
  | cons a t ih =>
    simp only [initRecord, List.map_cons, List.mem_cons, Prod.mk.injEq] at h
    rcases h with h | h
    · exact h.2
    · exact ih h

theorem recKeysApplyBlockKs (d : Record) (o : Option Element)
    (f : Element → List (String × Option String)) (ks fks : List String)
    (hd : recKeys d = ks) (hf : ∀ e, (f e).map Prod.fst = fks)
    (hsub : (fks.all fun k => ks.contains k) = true) :
    recKeys (applyBlock d o f) = ks := by
  cases o with
  | none => exact hd
  | some e =>
    show recKeys (updateFields d (f e)) = ks
    rw [recKeysUpdateFields d (f e) ?_, hd]
    intro k hk
    rw [hf e] at hk
    rw [hd, ← containsIffMemS]
    exact List.all_eq_true.mp hsub k hk

theorem memApplyBlock (d : Record) (o : Option Element)
    (f : Element → List (String × Option String)) (k : String)
    (v : Option String) (h : (k, v) ∈ applyBlock d o f) :
    (k, v) ∈ d ∨ ∃ e, o = some e ∧ (k, v) ∈ f e := by
  cases o with
  | none => exact Or.inl h
  | some e =>
    rcases memUpdateFields d (f e) k v h with h | h
    · exact Or.inl h
    · exact Or.inr ⟨e, rfl, h⟩

theorem lookupValApplyBlockNi (d : Record) (o : Option Element)
    (f : Element → List (String × Option String)) (fks : List String)
    (hf : ∀ e, (f e).map Prod.fst = fks) (k : String) (hk : k ∉ fks) :
    lookupVal (applyBlock d o f) k = lookupVal d k := by
  cases o with
  | none => rfl
  | some e =>
    show lookupVal (updateFields d (f e)) k = _
    refine lookupValUpdateFieldsNi d (f e) k ?_
    rw [hf e]
    exact hk

theorem lookupValApplyBlockSingle (d : Record) (e : Element) (key : String)
    (vf : Element → Option String) (h : key ∈ recKeys d) :
    lookupVal (applyBlock d (some e) (fun x => [(key, vf x)])) key = some (vf e) := by
  show lookupVal (setKey d key (vf e)) key = _
  exact lookupValSetKeyEq d key (vf e) h

theorem runBatchesAuxEqPure (bs : Nat) (batch : List Record)
    (writes : List (List Record)) (docs : List (Option Record)) :
    runBatchesAux bs batch writes docs = runPure bs batch writes (truthyRecs docs) := by
  induction docs generalizing batch writes with
  | nil => rfl
  | cons d rest ih =>
    cases d with
    | none =>
      show runBatchesAux bs batch writes rest = _
      rw [ih]
      have : truthyRecs (none :: rest) = truthyRecs rest := by
        simp [truthyRecs]
      rw [this]
    | some data =>
      by_cases hd : data = []
      · subst hd
        have h1 : runBatchesAux bs batch writes (some [] :: rest) =
            runBatchesAux bs batch writes rest := by
          simp [runBatchesAux]
        have h2 : truthyRecs (some [] :: rest) = truthyRecs rest := by
          simp [truthyRecs]
        rw [h1, h2, ih]
      · have h2 : truthyRecs (some data :: rest) = data :: truthyRecs rest := by
          simp [truthyRecs, hd]
        rw [h2]
        by_cases hb : bs ≤ (batch ++ [data]).length
        · have h1 : runBatchesAux bs batch writes (some data :: rest) =
              runBatchesAux bs [] (writes ++ [batch ++ [data]]) rest := by
            simp only [runBatchesAux, if_neg hd, if_pos hb]
          have h3 : runPure bs batch writes (data :: truthyRecs rest) =
              runPure bs [] (writes ++ [batch ++ [data]]) (truthyRecs rest) := by
            simp only [runPure, if_pos hb]
          rw [h1, h3, ih]
        · have h1 : runBatchesAux bs batch writes (some data :: rest) =
              runBatchesAux bs (batch ++ [data]) writes rest := by
            simp only [runBatchesAux, if_neg hd, if_neg hb]
          have h3 : runPure bs batch writes (data :: truthyRecs rest) =
              runPure bs (batch ++ [data]) writes (truthyRecs rest) := by
            simp only [runPure, if_neg hb]
          rw [h1, h3, ih]

theorem runPureFive (l : List Record) (h : l.length = 5) :
    (runPure 2 [] [] l).map List.length = [2, 2, 1] ∧
    (runPure 2 [] [] l).flatten.length = 5 := by
  rcases l with _ | ⟨a, _ | ⟨b, _ | ⟨c, _ | ⟨d, _ | ⟨e, _ | ⟨f, t⟩⟩⟩⟩⟩⟩
  · simp at h
  · simp at h
  · simp at h
  · simp at h
  · simp at h
  · exact ⟨rfl, rfl⟩
  · simp only [List.length_cons] at h
    omega

/-!
Unconditional lookup of a freshly set key: `setKey` either replaces the
first binding of the key or appends one, and in both cases a lookup of
that key now yields the new value.
-/

theorem lookupValSetKeySame (d : Record) (k : String) (v : Option String) :
    lookupVal (setKey d k v) k = some v := by
  induction d with
  | nil => simp [setKey, lookupVal]
  | cons kv rest ih =>
    obtain ⟨a, b⟩ := kv
    by_cases hk : a = k
    · simp [setKey, hk, lookupVal]
    · simp only [setKey, hk, if_false, lookupVal, if_neg hk]
      exact ih

theorem lookupValApplyBlockSome (d : Record) (e : Element) (key : String)
    (vf : Element → Option String) :
    lookupVal (applyBlock d (some e) (fun x => [(key, vf x)])) key = some (vf e) := by
  show lookupVal (setKey d key (vf e)) key = _
  exact lookupValSetKeySame d key (vf e)

/-!
Key-set invariants of the CAPP stages: every update writes only declared
keys, so each stage keeps exactly the declared key list, in order.
-/

theorem capStage1Keys (root : Element) : recKeys (capStage1 root) = capKeys :=
  recKeysApplyBlockKs capInit (findDescE "META_COMMUN" root) capCommunFields
    capKeys ["id", "ancien_id", "origine", "url", "nature"]
    (recKeysInit capKeys) (fun _ => rfl) (by decide)

theorem capStage2Keys (root : Element) : recKeys (capStage2 root) = capKeys :=
  recKeysApplyBlockKs (capStage1 root) (findDescE "META_JURI" root) capJuriFields
    capKeys ["titre", "date_decision", "juridiction", "numero", "solution"]
    (capStage1Keys root) (fun _ => rfl) (by decide)

theorem capStage3Keys (root : Element) : recKeys (capStage3 root) = capKeys :=
  recKeysApplyBlockKs (capStage2 root) (findDescE "META_JURI_JUDI" root)
    capJuriJudiFields capKeys
    ["numero_affaire", "formation", "siege_appel",
     "juridiction_premiere_instance", "lieu_premiere_instance", "president",
     "avocat_general", "avocats", "rapporteur"]
    (capStage2Keys root) (fun _ => rfl) (by decide)

theorem capStage4Keys (root : Element) : recKeys (capStage4 root) = capKeys :=
  recKeysApplyBlockKs (capStage3 root) (findDescE "CONTENU" root) _
    capKeys ["contenu"] (capStage3Keys root) (fun _ => rfl) (by decide)

theorem parseCAPPRootKeys (root : Element) : recKeys (parseCAPPRoot root) = capKeys :=
  recKeysApplyBlockKs (capStage4 root) (findDescE "SOMMAIRE" root) _
    capKeys ["sommaire"] (capStage4Keys root) (fun _ => rfl) (by decide)

/-- When `META_SPEC` is absent the `META_SPEC` branch leaves the record
unchanged. -/
theorem incaStage2NoSpec (root : Element)
    (h : findDescE "META_SPEC" root = none) : incaStage2 root = incaStage1 root := by
  unfold incaStage2
  rw [h]

/-!
Claimwise results.
-/

theorem capCommunFieldsVals (e : Element) (k : String) (v : Option String)
    (h : (k, v) ∈ capCommunFields e) : v ≠ none := by
  simp only [capCommunFields, List.mem_cons, List.not_mem_nil, or_false,
    Prod.mk.injEq] at h
  rcases h with ⟨-, h⟩ | ⟨-, h⟩ | ⟨-, h⟩ | ⟨-, h⟩ | ⟨-, h⟩ <;> (rw [h]; simp)

theorem capJuriFieldsVals (e : Element) (k : String) (v : Option String)
    (h : (k, v) ∈ capJuriFields e) : v ≠ none := by
  simp only [capJuriFields, List.mem_cons, List.not_mem_nil, or_false,
    Prod.mk.injEq] at h
  rcases h with ⟨-, h⟩ | ⟨-, h⟩ | ⟨-, h⟩ | ⟨-, h⟩ | ⟨-, h⟩ <;> (rw [h]; simp)

theorem capJuriJudiFieldsVals (e : Element) (k : String) (v : Option String)
    (h : (k, v) ∈ capJuriJudiFields e) (hk : k ≠ "numero_affaire") : v ≠ none := by
  simp only [capJuriJudiFields, List.mem_cons, List.not_mem_nil, or_false,
    Prod.mk.injEq] at h
  rcases h with ⟨h1, -⟩ | ⟨-, h⟩ | ⟨-, h⟩ | ⟨-, h⟩ | ⟨-, h⟩ | ⟨-, h⟩ | ⟨-, h⟩ |
    ⟨-, h⟩ | ⟨-, h⟩
  · exact absurd h1 hk
  all_goals (rw [h]; simp)

/-- C1 (counterexample): the claim fails as stated.  In CAPP, a document
with `<NUMERO_AFFAIRE/>` (element present, no text) yields a record whose
`numero_affaire` value is Python `None`, not a string.  In CNIL, a
document without a `META_COMMUN` block parses successfully into a record
that simply lacks the `id` key — a partial/short mapping. -/
theorem claim_record_shape_cex :
    (("numero_affaire", (none : Option String)) ∈ parseCAPPRoot docCapNA) ∧
    (parseCNILRoot docCnilOnly =
      .ok [("titrefull", some ""), ("numero", some ""), ("nature_delib", some ""),
           ("date_texte", some ""), ("date_publi", some ""),
           ("etat_juridique", some "")]) ∧
    ("id" ∉ recKeys
      [(("titrefull" : String), (some "" : Option String)), ("numero", some ""),
       ("nature_delib", some ""), ("date_texte", some ""), ("date_publi", some ""),
       ("etat_juridique", some "")]) :=
  ⟨by decide, rfl, by decide⟩

/-- Updating with an absent block leaves the record unchanged. -/
theorem applyBlockNone (d : Record)
    (f : Element → List (String × Option String)) :
    applyBlock d none f = d := rfl

/-- C1 (amended): for the CAPP parser, every successfully parsed document
yields a record with exactly the declared 21 keys, in declaration order
(never a partial mapping); every key except `numero_affaire` maps to a
string (`numero_affaire` may be Python `None` when the element is present
without text); and whenever one of the five source blocks (`META_COMMUN`,
`META_JURI`, `META_JURI_JUDI`, `CONTENU`, `SOMMAIRE`) is absent, every key
fed by that block keeps the empty-string default — together the five key
groups cover all 21 declared keys.  (The CNIL parser does not share this
invariant: it builds its record from an empty dict.) -/
theorem capp_record_shape (root : Element) :
    recKeys (parseCAPPRoot root) = capKeys ∧
    (∀ k v, (k, v) ∈ parseCAPPRoot root → k ≠ "numero_affaire" → v ≠ none) ∧
    (findDescE "META_COMMUN" root = none →
      ∀ k ∈ ["id", "ancien_id", "origine", "url", "nature"],
        lookupVal (parseCAPPRoot root) k = some (some "")) ∧
    (findDescE "META_JURI" root = none →
      ∀ k ∈ ["titre", "date_decision", "juridiction", "numero", "solution"],
        lookupVal (parseCAPPRoot root) k = some (some "")) ∧
    (findDescE "META_JURI_JUDI" root = none →
      ∀ k ∈ ["numero_affaire", "formation", "siege_appel",
             "juridiction_premiere_instance", "lieu_premiere_instance",
             "president", "avocat_general", "avocats", "rapporteur"],
        lookupVal (parseCAPPRoot root) k = some (some "")) ∧
    (findDescE "CONTENU" root = none →
      lookupVal (parseCAPPRoot root) "contenu" = some (some "")) ∧
    (findDescE "SOMMAIRE" root = none →
      lookupVal (parseCAPPRoot root) "sommaire" = some (some "")) := by
  refine ⟨parseCAPPRootKeys root, ?_, ?_, ?_, ?_, ?_, ?_⟩
  · intro k v hm hk
    rcases memApplyBlock (capStage4 root) (findDescE "SOMMAIRE" root)
        (fun s => [("sommaire", some (String.mk (cleanTextL (itertextE s))))])
        k v hm with hm | ⟨e, -, hm⟩
    · rcases memApplyBlock (capStage3 root) (findDescE "CONTENU" root)
          (fun c => [("contenu", some (String.mk (cleanTextL (itertextE c))))])
          k v hm with hm | ⟨e, -, hm⟩
      · rcases memApplyBlock (capStage2 root) (findDescE "META_JURI_JUDI" root)
            capJuriJudiFields k v hm with hm | ⟨e, -, hm⟩
        · rcases memApplyBlock (capStage1 root) (findDescE "META_JURI" root)
              capJuriFields k v hm with hm | ⟨e, -, hm⟩
          · rcases memApplyBlock capInit (findDescE "META_COMMUN" root)
                capCommunFields k v hm with hm | ⟨e, -, hm⟩
            · rw [memInitRecord capKeys k v hm]
              simp
            · exact capCommunFieldsVals e k v hm
          · exact capJuriFieldsVals e k v hm
        · exact capJuriJudiFieldsVals e k v hm hk
      · simp only [List.mem_singleton, Prod.mk.injEq] at hm
        rw [hm.2]
        simp
    · simp only [List.mem_singleton, Prod.mk.injEq] at hm
      rw [hm.2]
      simp
  · intro h0 k hk
    fin_cases hk <;>
      (unfold parseCAPPRoot capStage4 capStage3 capStage2 capStage1
       rw [h0, applyBlockNone]
       rw [lookupValApplyBlockNi _ _
           (fun s => [("sommaire", some (String.mk (cleanTextL (itertextE s))))])
           ["sommaire"] (fun _ => rfl) _ (by decide),
         lookupValApplyBlockNi _ _
           (fun c => [("contenu", some (String.mk (cleanTextL (itertextE c))))])
           ["contenu"] (fun _ => rfl) _ (by decide),
         lookupValApplyBlockNi _ _ capJuriJudiFields
           ["numero_affaire", "formation", "siege_appel",
            "juridiction_premiere_instance", "lieu_premiere_instance",
            "president", "avocat_general", "avocats", "rapporteur"]
           (fun _ => rfl) _ (by decide),
         lookupValApplyBlockNi _ _ capJuriFields
           ["titre", "date_decision", "juridiction", "numero", "solution"]
           (fun _ => rfl) _ (by decide)]
       decide)
  · intro h0 k hk
    fin_cases hk <;>
      (unfold parseCAPPRoot capStage4 capStage3 capStage2 capStage1
       rw [h0, applyBlockNone]
       rw [lookupValApplyBlockNi _ _
           (fun s => [("sommaire", some (String.mk (cleanTextL (itertextE s))))])
           ["sommaire"] (fun _ => rfl) _ (by decide),
         lookupValApplyBlockNi _ _
           (fun c => [("contenu", some (String.mk (cleanTextL (itertextE c))))])
           ["contenu"] (fun _ => rfl) _ (by decide),
         lookupValApplyBlockNi _ _ capJuriJudiFields
           ["numero_affaire", "formation", "siege_appel",
            "juridiction_premiere_instance", "lieu_premiere_instance",
            "president", "avocat_general", "avocats", "rapporteur"]
           (fun _ => rfl) _ (by decide),
         lookupValApplyBlockNi _ _ capCommunFields
           ["id", "ancien_id", "origine", "url", "nature"]
           (fun _ => rfl) _ (by decide)]
       decide)
  · intro h0 k hk
    fin_cases hk <;>
      (unfold parseCAPPRoot capStage4 capStage3 capStage2 capStage1
       rw [h0, applyBlockNone]
       rw [lookupValApplyBlockNi _ _
           (fun s => [("sommaire", some (String.mk (cleanTextL (itertextE s))))])
           ["sommaire"] (fun _ => rfl) _ (by decide),
         lookupValApplyBlockNi _ _
           (fun c => [("contenu", some (String.mk (cleanTextL (itertextE c))))])
           ["contenu"] (fun _ => rfl) _ (by decide),
         lookupValApplyBlockNi _ _ capJuriFields
           ["titre", "date_decision", "juridiction", "numero", "solution"]
           (fun _ => rfl) _ (by decide),
         lookupValApplyBlockNi _ _ capCommunFields
           ["id", "ancien_id", "origine", "url", "nature"]
           (fun _ => rfl) _ (by decide)]
       decide)
  · intro h0
    unfold parseCAPPRoot capStage4 capStage3 capStage2 capStage1
    rw [h0, applyBlockNone]
    rw [lookupValApplyBlockNi _ _
        (fun s => [("sommaire", some (String.mk (cleanTextL (itertextE s))))])
        ["sommaire"] (fun _ => rfl) _ (by decide),
      lookupValApplyBlockNi _ _ capJuriJudiFields
        ["numero_affaire", "formation", "siege_appel",
         "juridiction_premiere_instance", "lieu_premiere_instance",
         "president", "avocat_general", "avocats", "rapporteur"]
        (fun _ => rfl) _ (by decide),
      lookupValApplyBlockNi _ _ capJuriFields
        ["titre", "date_decision", "juridiction", "numero", "solution"]
        (fun _ => rfl) _ (by decide),
      lookupValApplyBlockNi _ _ capCommunFields
        ["id", "ancien_id", "origine", "url", "nature"]
        (fun _ => rfl) _ (by decide)]
    decide
  · intro h0
    unfold parseCAPPRoot capStage4 capStage3 capStage2 capStage1
    rw [h0, applyBlockNone]
    rw [lookupValApplyBlockNi _ _
        (fun c => [("contenu", some (String.mk (cleanTextL (itertextE c))))])
        ["contenu"] (fun _ => rfl) _ (by decide),
      lookupValApplyBlockNi _ _ capJuriJudiFields
        ["numero_affaire", "formation", "siege_appel",
         "juridiction_premiere_instance", "lieu_premiere_instance",
         "president", "avocat_general", "avocats", "rapporteur"]
        (fun _ => rfl) _ (by decide),
      lookupValApplyBlockNi _ _ capJuriFields
        ["titre", "date_decision", "juridiction", "numero", "solution"]
        (fun _ => rfl) _ (by decide),
      lookupValApplyBlockNi _ _ capCommunFields
        ["id", "ancien_id", "origine", "url", "nature"]
        (fun _ => rfl) _ (by decide)]
    decide

/-- C1 (witness): the amended theorem applied to the empty document, one
instance per absent block. -/
theorem capp_record_shape_witness :
    recKeys (parseCAPPRoot docEmpty) = capKeys ∧
    (some "" : Option String) ≠ none ∧
    lookupVal (parseCAPPRoot docEmpty) "id" = some (some "") ∧
    lookupVal (parseCAPPRoot docEmpty) "titre" = some (some "") ∧
    lookupVal (parseCAPPRoot docEmpty) "numero_affaire" = some (some "") ∧
    lookupVal (parseCAPPRoot docEmpty) "contenu" = some (some "") ∧
    lookupVal (parseCAPPRoot docEmpty) "sommaire" = some (some "") := by
  refine ⟨(capp_record_shape docEmpty).1, ?_, ?_, ?_, ?_, ?_, ?_⟩
  · exact (capp_record_shape docEmpty).2.1 "titre" (some "") (by decide) (by decide)
  · exact (capp_record_shape docEmpty).2.2.1 rfl "id" (by decide)
  · exact (capp_record_shape docEmpty).2.2.2.1 rfl "titre" (by decide)
  · exact (capp_record_shape docEmpty).2.2.2.2.1 rfl "numero_affaire" (by decide)
  · exact (capp_record_shape docEmpty).2.2.2.2.2.1 rfl
  · exact (capp_record_shape docEmpty).2.2.2.2.2.2 rfl

/-- C2 (counterexample): the claim fails as stated.  In CNIL, a parse
error is not converted into a failure value at the document boundary: it
is re-raised, and the processing loop of `tar_dila_data` has no handler,
so one malformed document aborts the whole corpus run (the documents after
it are never processed and nothing is written). -/
theorem claim_doc_failure_cex :
    runCNIL [.ok docCnilOnly, .error "not well-formed", .ok docCnilOnly] =
      .error "ValueError: Invalid XML format: not well-formed" := rfl

/-- C2 (amended): in CAPP and JADE (and identically CASS/INCA), any
exception while parsing one document is caught at the document boundary
and converted into `None`, and the batching pipeline's output is exactly
what it would have been without the failing document; in CNIL, however,
the exception is wrapped (`ValueError`/`RuntimeError`) and re-raised, and
the corpus run aborts at the failing document. -/
theorem doc_failure_nonfatal (bs : Nat) (pre post : List (Except String Element))
    (e : String) (rest : List (Except String Element)) :
    parseCAPP (.error e) = none ∧
    parseJADE (.error e) = none ∧
    runCAPP bs (pre ++ .error e :: post) = runCAPP bs (pre ++ post) ∧
    runCNIL (.error e :: rest) =
      .error ("ValueError: Invalid XML format: " ++ e) := by
  refine ⟨rfl, rfl, ?_, rfl⟩
  unfold runCAPP runBatches
  rw [runBatchesAuxEqPure, runBatchesAuxEqPure]
  congr 1
  simp [truthyRecs, parseCAPP]

/-- C3 (counterexample): the claim fails as stated for CNIL.  For a
document where the content block is `<CONTENU>foo</CONTENU>bar`, the
normalization of the concatenation of all descendant text nodes of the
block is `"foo"`, but the record's `contenu` is `"foobar"`:
`ET.tostring(..., method="text")` also serializes the element's tail text,
which lies outside the content block. -/
theorem claim_contenu_itertext_cex :
    findDescE "CONTENU" docCnilTail =
      some (.mk "CONTENU" [] (some "foo") .nil (some "bar")) ∧
    String.mk (stripBoth (itertextE (.mk "CONTENU" [] (some "foo") .nil (some "bar")))) = "foo" ∧
    parseCNILRoot docCnilTail =
      .ok [("titrefull", some ""), ("numero", some ""), ("nature_delib", some ""),
           ("date_texte", some ""), ("date_publi", some ""),
           ("etat_juridique", some ""), ("contenu", some "foobar")] ∧
    ("foobar" : String) ≠ "foo" :=
  ⟨rfl, rfl, rfl, by decide⟩

/-- C3 (amended): in CAPP (and INCA/CASS) the record's `contenu` is
`clean_text` of the concatenation of all descendant text nodes of the
content block, so nested markup never truncates the text; in CNIL the
extracted text is the strip of that concatenation followed by the content
element's tail text; in JADE a document with a content block never parses
successfully at all (its `clean_text` raises `NameError`). -/
theorem contenu_full_itertext (root : Element) :
    (∀ c, findDescE "CONTENU" root = some c →
      lookupVal (parseCAPPRoot root) "contenu" =
        some (some (String.mk (cleanTextL (itertextE c))))) ∧
    (∀ meta c, findDescE "META_CNIL" root = some meta →
      findDescE "CONTENU" root = some c →
      ∃ d, parseCNILRoot root = .ok d ∧
        lookupVal d "contenu" =
          some (some (String.mk (stripBoth (itertextE c ++ optStr c.tail))))) ∧
    (∀ c, findDescE "CONTENU" root = some c → parseJADE (.ok root) = none) := by
  refine ⟨?_, ?_, ?_⟩
  · intro c hc
    unfold parseCAPPRoot capStage4
    rw [lookupValApplyBlockNi _ _
        (fun s => [("sommaire", some (String.mk (cleanTextL (itertextE s))))])
        ["sommaire"] (fun _ => rfl) _ (by decide), hc]
    exact lookupValApplyBlockSome (capStage3 root) c "contenu"
      (fun x => some (String.mk (cleanTextL (itertextE x))))
  · intro meta c hm hc
    have hp : parseCNILRoot root =
        .ok (applyBlock (updateFields (cnilStage1 root) (cnilCnilFields meta))
          (some c)
          (fun x => [("contenu", some (String.mk (stripBoth (tostringText x))))])) := by
      simp only [parseCNILRoot, hm, hc]
    refine ⟨_, hp, ?_⟩
    exact lookupValApplyBlockSome _ c "contenu"
      (fun x => some (String.mk (stripBoth (tostringText x))))
  · intro c hc
    show parseJADERoot root = none
    unfold parseJADERoot
    rw [hc]

/-- C3 (witness): the amended theorem at concrete documents. -/
theorem contenu_full_itertext_witness :
    lookupVal (parseCAPPRoot docJadeContenu) "contenu" = some (some "hello") ∧
    (∃ d, parseCNILRoot docCnilTail = .ok d ∧
      lookupVal d "contenu" = some (some "foobar")) ∧
    parseJADE (.ok docJadeContenu) = none := by
  refine ⟨?_, ?_, ?_⟩
  · exact (contenu_full_itertext docJadeContenu).1
      (.mk "CONTENU" [] (some "hello") .nil none) rfl
  · obtain ⟨d, hd, hl⟩ := (contenu_full_itertext docCnilTail).2.1
      (.mk "META_CNIL" [] none .nil none)
      (.mk "CONTENU" [] (some "foo") .nil (some "bar")) rfl rfl
    exact ⟨d, hd, hl⟩
  · exact (contenu_full_itertext docJadeContenu).2.2
      (.mk "CONTENU" [] (some "hello") .nil none) rfl

/-- C4 (confirmed): the field extractor is a total function; it returns
`""` when no element matches the path or the match's text is `None` or
empty, and the normalized text otherwise — for both the
`clean_text`-based variant (CAPP/CASS/INCA) and the `.strip()`-based one
(JADE).  Totality in this embedding is exactly "never raises": every
outcome of `find` is covered by a returning branch. -/
theorem get_element_text_total (e : Element) (p : ETPath) :
    (findPath e p = none → getElementText e p = "" ∧ getElementTextJade e p = "") ∧
    (∀ f, findPath e p = some f → f.text = none ∨ f.text = some "" →
      getElementText e p = "" ∧ getElementTextJade e p = "") ∧
    (∀ f t, findPath e p = some f → f.text = some t → t ≠ "" →
      getElementText e p = cleanText t ∧
      getElementTextJade e p = String.mk (stripBoth t.data)) := by
  refine ⟨?_, ?_, ?_⟩
  · intro h
    constructor <;> simp [getElementText, getElementTextJade, h]
  · intro f hf ht
    rcases ht with ht | ht <;>
      (constructor <;> simp [getElementText, getElementTextJade, hf, ht])
  · intro f t hf ht hne
    constructor <;> simp [getElementText, getElementTextJade, hf, ht, hne]

/-- C4 (witness): the theorem at a concrete element, for a missing path
and for a present one. -/
theorem get_element_text_total_witness :
    findPath docWithId (.child "NOPE") = none ∧
    getElementText docWithId (.child "NOPE") = "" ∧
    findPath docWithId (.child "ID") = some docWithIdChild ∧
    getElementText docWithId (.child "ID") = cleanText " x " ∧
    getElementTextJade docWithId (.child "ID") = String.mk (stripBoth (" x " : String).data) := by
  refine ⟨rfl, ?_, rfl, ?_, ?_⟩
  · exact ((get_element_text_total docWithId (.child "NOPE")).1 rfl).1
  · exact ((get_element_text_total docWithId (.child "ID")).2.2 docWithIdChild
      " x " rfl rfl (by decide)).1
  · exact ((get_element_text_total docWithId (.child "ID")).2.2 docWithIdChild
      " x " rfl rfl (by decide)).2

/-- C5 (counterexample): the claim fails as stated.  When `PUBLI_BULL` is
present but carries no `publie` attribute, `publi_bull.get('publie')`
returns Python `None`, not `""`, and that `None` lands in the record — so
the result is not always a string. -/
theorem claim_publie_attr_cex :
    (findChildE "PUBLI_BULL" docIncaMJJ).isSome = true ∧
    publieBulletin docIncaMJJ = none ∧
    lookupVal (parseINCARoot docIncaPB) "publie_bulletin" = some none :=
  ⟨rfl, rfl, by decide⟩

/-- C5 (amended): the attribute-reading extractor returns `""` when the
`PUBLI_BULL` element is absent; when the element is present it returns
`element.get('publie')` verbatim — the attribute's value, or Python `None`
when the attribute is absent. -/
theorem publie_attr_read (m : Element) :
    (findChildE "PUBLI_BULL" m = none → publieBulletin m = some "") ∧
    (∀ pb, findChildE "PUBLI_BULL" m = some pb →
      publieBulletin m = getAttr pb "publie") := by
  constructor
  · intro h
    simp [publieBulletin, h]
  · intro pb h
    simp [publieBulletin, h]

/-- C5 (witness): the amended theorem at concrete elements. -/
theorem publie_attr_read_witness :
    publieBulletin docEmpty = some "" ∧
    publieBulletin docIncaMJJ = getAttr (.mk "PUBLI_BULL" [] none .nil none) "publie" :=
  ⟨(publie_attr_read docEmpty).1 rfl,
   (publie_attr_read docIncaMJJ).2 (.mk "PUBLI_BULL" [] none .nil none) rfl⟩

/-- C6 (counterexample): the claim fails as stated.  A document carrying
the specialized `META_JURI` block at top level but no `META_SPEC`
container parses with `titre` left at `""` even though the block's
`TITRE` reads `"T"` — there is no top-level fallback lookup. -/
theorem claim_inca_fallback_cex :
    (findDescE "META_JURI" docIncaTopJuri).isSome = true ∧
    findDescE "META_SPEC" docIncaTopJuri = none ∧
    getElementText docIncaTopJuriBlock (.child "TITRE") = "T" ∧
    lookupVal (parseINCARoot docIncaTopJuri) "titre" = some (some "") :=
  ⟨rfl, rfl, by decide, by decide⟩

/-- C6 (amended): the INCA parser looks for the specialized blocks
(`META_JURI`, `META_JURI_JUDI`) only as descendants of the `META_SPEC`
container; when the container is absent, every specialized field keeps its
`""` default, regardless of what is present elsewhere in the document. -/
theorem inca_spec_only (root : Element)
    (h : findDescE "META_SPEC" root = none) :
    ∀ k ∈ incaSpecKeys, lookupVal (parseINCARoot root) k = some (some "") := by
  intro k hk
  have h2 := incaStage2NoSpec root h
  fin_cases hk <;>
    (unfold parseINCARoot incaStage3
     rw [h2]
     unfold incaStage1
     rw [lookupValApplyBlockNi _ _
         (fun s => [("sommaire", some (String.mk (cleanTextL (itertextE s))))])
         ["sommaire"] (fun _ => rfl) _ (by decide),
       lookupValApplyBlockNi _ _
         (fun c => [("contenu", some (String.mk (cleanTextL (itertextE c))))])
         ["contenu"] (fun _ => rfl) _ (by decide),
       lookupValApplyBlockNi _ _ capCommunFields
         ["id", "ancien_id", "origine", "url", "nature"]
         (fun _ => rfl) _ (by decide)]
     decide)

/-- C6 (witness): the amended theorem at the empty document. -/
theorem inca_spec_only_witness :
    findDescE "META_SPEC" docEmpty = none ∧
    lookupVal (parseINCARoot docEmpty) "titre" = some (some "") :=
  ⟨rfl, inca_spec_only docEmpty rfl "titre" (by decide)⟩

/-- C7 (confirmed): on any string containing none of the five XML escape
sequences, `clean_text` is idempotent. -/
theorem clean_text_idem (s : String) (h : entFree s.data) :
    cleanText (cleanText s) = cleanText s :=
  congrArg String.mk (cleanTextLIdem s.data h)

/-- C7 (witness): idempotence at a concrete entity-free string. -/
theorem clean_text_idem_witness :
    entFree (" a\t<x> &b " : String).data ∧
    cleanText (cleanText " a\t<x> &b ") = cleanText " a\t<x> &b " :=
  ⟨by decide, clean_text_idem " a\t<x> &b " (by decide)⟩

/-- C8 (confirmed): with batch size 2 and exactly 5 truthy parse results,
the CAPP loop performs exactly 3 writes, of sizes 2, 2 and 1 in that
order, and the concatenation of the written batches — the output file's
lines — has exactly 5 records: a full buffer triggers a write, and the
end-of-run remainder is flushed. -/
theorem batch_sink_two_five (docs : List (Option Record))
    (h : (truthyRecs docs).length = 5) :
    (runBatches 2 docs).length = 3 ∧
    (runBatches 2 docs).map List.length = [2, 2, 1] ∧
    (runBatches 2 docs).flatten.length = 5 := by
  have hh : runBatches 2 docs = runPure 2 [] [] (truthyRecs docs) :=
    runBatchesAuxEqPure 2 [] [] docs
  have h5 := runPureFive (truthyRecs docs) h
  refine ⟨?_, hh ▸ h5.1, hh ▸ h5.2⟩
  rw [hh]
  have hlen := congrArg List.length h5.1
  simpa using hlen

/-- C8 (witness): the theorem at a concrete run. -/
theorem batch_sink_two_five_witness :
    (truthyRecs docsFive).length = 5 ∧
    (runBatches 2 docsFive).map List.length = [2, 2, 1] ∧
    (runBatches 2 docsFive).flatten.length = 5 :=
  ⟨by decide, (batch_sink_two_five docsFive (by decide)).2.1,
   (batch_sink_two_five docsFive (by decide)).2.2⟩

/-- C9 (confirmed): in JADE.py, `re` is never imported, so `clean_text`
raises `NameError` on its first statement; `clean_text` is reached exactly
when a `CONTENU` element is present, so every well-formed document with a
`CONTENU` block makes `parse_xml_file` return `None` and disappear from
the output, while documents without `CONTENU` are parsed normally. -/
theorem jade_contenu_poisoned (root : Element) :
    (∀ c, findDescE "CONTENU" root = some c → parseJADE (.ok root) = none) ∧
    (findDescE "CONTENU" root = none → parseJADE (.ok root) = some (jadeStage3 root)) ∧
    (∀ c pre post, findDescE "CONTENU" root = some c →
      runJADE (pre ++ .ok root :: post) = runJADE (pre ++ post)) := by
  have h1 : ∀ c, findDescE "CONTENU" root = some c → parseJADE (.ok root) = none := by
    intro c hc
    show parseJADERoot root = none
    unfold parseJADERoot
    rw [hc]
  refine ⟨h1, ?_, ?_⟩
  · intro hc
    show parseJADERoot root = some (jadeStage3 root)
    unfold parseJADERoot
    rw [hc]
  · intro c pre post hc
    unfold runJADE
    rw [List.filterMap_append, List.filterMap_append]
    congr 1
    simp [h1 c hc]

/-- C9 (witness): the theorem at concrete documents with and without a
content block. -/
theorem jade_contenu_poisoned_witness :
    ((findDescE "CONTENU" docJadeContenu).isSome = true ∧
      parseJADE (.ok docJadeContenu) = none) ∧
    (findDescE "CONTENU" docJadeMetaOnly = none ∧
      parseJADE (.ok docJadeMetaOnly) = some (jadeStage3 docJadeMetaOnly)) ∧
    runJADE [.ok docJadeMetaOnly, .ok docJadeContenu] = runJADE [.ok docJadeMetaOnly] := by
  refine ⟨⟨rfl, ?_⟩, ⟨rfl, ?_⟩, ?_⟩
  · exact (jade_contenu_poisoned docJadeContenu).1
      (.mk "CONTENU" [] (some "hello") .nil none) rfl
  · exact (jade_contenu_poisoned docJadeMetaOnly).2.1 rfl
  · exact (jade_contenu_poisoned docJadeContenu).2.2
      (.mk "CONTENU" [] (some "hello") .nil none) [.ok docJadeMetaOnly] [] rfl

/-- C10 (confirmed): the five replacements are applied sequentially with
`&amp;` first, so doubly-encoded entities cascade: the `&amp;`-pass turns
`&amp;lt;x&amp;gt;` into `&lt;x&gt;`, which the later passes then decode
to `<x>`. -/
theorem double_decoding_cascade :
    replaceL ['&', 'a', 'm', 'p', ';'] ['&'] ("&amp;lt;x&amp;gt;" : String).data =
      ("&lt;x&gt;" : String).data ∧
    cleanText "&amp;lt;x&amp;gt;" = "<x>" :=
  ⟨by decide, by decide⟩
